import Mathlib

set_option maxRecDepth 8000

namespace SafePrompt

/-!
Shallow embedding of the SafePrompt extension (src/extension.js).

Document text is a list of characters; a document carries its language id.
The regular expressions of the source are translated into executable
matching functions on character lists; leftmost-match search and the
backtracking behaviour of the concrete patterns are spelled out where the
pattern admits it.  The asynchronous enhancement pipeline is modelled as
explicit state transitions on the per-document mutable state (the stored
enhancement diagnostics and the in-flight markers of the timers map).
-/

/-- Character class of the regex escape backslash-s (JavaScript whitespace):
ASCII whitespace plus the Unicode space characters JavaScript recognises. -/
def isSpace (c : Char) : Bool :=
  c = ' ' || c = '\t' || c = '\n' || c = '\r' || c = '\x0b' || c = '\x0c' ||
  c = '\u00A0' || c = '\u1680' ||
  (0x2000 ≤ c.toNat && c.toNat ≤ 0x200A) ||
  c = '\u2028' || c = '\u2029' || c = '\u202F' || c = '\u205F' ||
  c = '\u3000' || c = '\uFEFF'

/-- Line terminators, which the regex dot does not match in JavaScript. -/
def isLineTerm (c : Char) : Bool :=
  c = '\n' || c = '\r' || c = '\u2028' || c = '\u2029'

/-- The backtick character, written by code point. -/
def backtick : Char := Char.ofNat 96

/-- Quote class of the secret regex: single quote, double quote, backtick. -/
def isQuote (c : Char) : Bool :=
  c = '\'' || c = '"' || c = backtick

/-- Word characters as used in the function-definition regex `[a-zA-Z0-9_]`. -/
def isWordChar (c : Char) : Bool :=
  ('a' ≤ c && c ≤ 'z') || ('A' ≤ c && c ≤ 'Z') || ('0' ≤ c && c ≤ '9') || c = '_'

/-- Case folding used for the regex flag i (ASCII case folding). -/
def lc (c : Char) : Char := c.toLower

/-- Splitting a document text on the line-separator regex (carriage return
optional, then newline), as in `text.split` of the source. -/
def splitLines : List Char → List (List Char)
  | [] => [[]]
  | '\r' :: '\n' :: rest => [] :: splitLines rest
  | '\n' :: rest => [] :: splitLines rest
  | c :: rest =>
    match splitLines rest with
    | [] => [[c]]
    | l :: ls => (c :: l) :: ls

/-- JavaScript String.prototype.trim on a character list. -/
def trimJS (l : List Char) : List Char :=
  ((l.dropWhile isSpace).reverse.dropWhile isSpace).reverse

/-- Pair each element with its index, starting at n (the forEach index). -/
def enumFrom : Nat → List α → List (Nat × α)
  | _, [] => []
  | n, x :: xs => (n, x) :: enumFrom (n + 1) xs

/-- Boolean test that pat is a prefix of l (character lists). -/
def isPrefixB : List Char → List Char → Bool
  | [], _ => true
  | _ :: _, [] => false
  | p :: ps, c :: cs => p = c && isPrefixB ps cs

/-- Boolean substring test (pat occurs contiguously in l). -/
def containsSubB (pat : List Char) : List Char → Bool
  | [] => isPrefixB pat []
  | l@(_ :: rest) => isPrefixB pat l || containsSubB pat rest

/-- Case-insensitive substring test, as `/pat/i.test(l)` for a literal pat. -/
def containsCI (pat : String) (l : List Char) : Bool :=
  containsSubB (pat.toList.map lc) (l.map lc)

/-- First index at or after i where pat occurs in l, as String.prototype.indexOf. -/
def indexOfFrom (pat : List Char) : List Char → Nat → Option Nat
  | [], i => if isPrefixB pat [] then some i else none
  | l@(_ :: rest), i => if isPrefixB pat l then some i else indexOfFrom pat rest (i + 1)

/-- Match a case-insensitive literal at the head of the input; returns the
consumed characters (in original case) and the rest. -/
def litCI : List Char → List Char → Option (List Char × List Char)
  | [], l => some ([], l)
  | _ :: _, [] => none
  | p :: ps, c :: cs =>
    if lc c = lc p then
      match litCI ps cs with
      | some (m, r) => some (c :: m, r)
      | none => none
    else none

/-- Greedy whitespace-star followed by one character satisfying q; returns the
consumed characters and the rest.  Mirrors a regex fragment of the shape
backslash-s star followed by a single-character class. -/
def wsThen (q : Char → Bool) (l : List Char) : Option (List Char × List Char) :=
  match l.dropWhile isSpace with
  | c :: rest => if q c then some (l.takeWhile isSpace ++ [c], rest) else none
  | [] => none

/-- Leftmost-match search: try the matcher at the head, else advance one
character, as a regex engine scans starting positions left to right.
Returns the start index (counting from i) and the matched characters. -/
def findFrom (M : List Char → Option (List Char × List Char)) :
    List Char → Nat → Option (Nat × List Char)
  | [], i =>
    match M [] with
    | some (m, _) => some (i, m)
    | none => none
  | l@(_ :: rest), i =>
    match M l with
    | some (m, _) => some (i, m)
    | none => findFrom M rest (i + 1)

/-! ### Diagnostics data model -/

/-- A diagnostic range: (startLine, startCol, endLine, endCol). -/
structure DiagRange where
  startLine : Nat
  startCol : Nat
  endLine : Nat
  endCol : Nat
deriving DecidableEq, Repr

/-- Diagnostic severities used by the extension. -/
inductive Severity where
  | Information
  | Warning
deriving DecidableEq, Repr

/-- A diagnostic as stored and published by the extension. -/
structure Diagnostic where
  range : DiagRange
  message : String
  severity : Severity
  code : String
deriving DecidableEq, Repr

/-- A document: its text and its language id. -/
structure Document where
  text : List Char
  languageId : String

/-! ### Pattern Scanner (findIssuesWithRegex) -/

/-- First alternative of the secret-kind token group: api, optional underscore
or hyphen, key.  The optional separator is greedy; if the separator is present
but key does not follow it, no backtrack can succeed because the separator
character cannot start key. -/
def matchApiKey (l : List Char) : Option (List Char × List Char) :=
  match litCI ("api".toList) l with
  | none => none
  | some (m1, r1) =>
    match r1 with
    | c :: r2 =>
      if c = '_' || c = '-' then
        match litCI ("key".toList) r2 with
        | none => none
        | some (m2, r3) => some (m1 ++ c :: m2, r3)
      else
        match litCI ("key".toList) r1 with
        | none => none
        | some (m2, r3) => some (m1 ++ m2, r3)
    | [] => none

/-- The secret-kind token alternation of the secret regex, alternatives tried
in source order.  The second alternative (apikey) is subsumed by the first but
is kept for fidelity to the source pattern. -/
def matchToken (l : List Char) : Option (List Char × List Char) :=
  match matchApiKey l with
  | some res => some res
  | none =>
    match litCI ("apikey".toList) l with
    | some res => some res
    | none =>
      match litCI ("secret".toList) l with
      | some res => some res
      | none => litCI ("token".toList) l

/-- Match the hardcoded-secret regex at the head of the input: token,
whitespace, colon or equals, whitespace, an opening quote, one or more
non-quote characters (greedy; it stops exactly at the next quote, which the
closing single-character quote class then consumes, so no backtracking can
produce a different match), and a closing quote that need not match the
opening one. -/
def matchSecretAt (l : List Char) : Option (List Char × List Char) :=
  match matchToken l with
  | none => none
  | some (m1, r1) =>
    match wsThen (fun c => c = ':' || c = '=') r1 with
    | none => none
    | some (m2, r2) =>
      match wsThen isQuote r2 with
      | none => none
      | some (m3, r3) =>
        match r3.dropWhile (fun c => !isQuote c) with
        | q :: r4 =>
          if r3.takeWhile (fun c => !isQuote c) = [] then none
          else some (m1 ++ m2 ++ m3 ++ r3.takeWhile (fun c => !isQuote c) ++ [q], r4)
        | [] => none

/-- The hardcoded-secret rule applied to one line: leftmost match of the
secret regex, start column computed through indexOf on the matched substring
as in the source, range to end of line. -/
def secretDiagOfLine (i : Nat) (line : List Char) : Option Diagnostic :=
  match findFrom matchSecretAt line 0 with
  | none => none
  | some (_, m0) =>
    some ⟨⟨i, (indexOfFrom m0 line 0).getD 0, i, line.length⟩,
      "Hardcoded secret detected. Consider using environment variables.",
      .Warning, "SafePrompt.hardcoded_secret"⟩

/-- First alternative of the function regex: function, whitespace (at least
one), a word-character name, whitespace, an opening parenthesis. -/
def matchFuncDecl (l : List Char) : Option (List Char) :=
  match litCI ("function".toList) l with
  | none => none
  | some (_, r1) =>
    if r1.takeWhile isSpace = [] then none
    else if (r1.dropWhile isSpace).takeWhile isWordChar = [] then none
    else
      match ((r1.dropWhile isSpace).dropWhile isWordChar).dropWhile isSpace with
      | '(' :: _ => some ((r1.dropWhile isSpace).takeWhile isWordChar)
      | _ => none

/-- Tail test for the arrow part of the second alternative: whitespace then
the two-character arrow. -/
def arrowAfterParen (l : List Char) : Bool :=
  match l.dropWhile isSpace with
  | '=' :: '>' :: _ => true
  | _ => false

/-- Scan for a closing parenthesis followed by the arrow, where the regex dot
that precedes the parenthesis cannot cross a line terminator. -/
def hasParenArrow : List Char → Bool
  | [] => false
  | c :: rest =>
    if isLineTerm c then false
    else (c = ')' && arrowAfterParen rest) || hasParenArrow rest

/-- Second alternative of the function regex: const, whitespace, a name, an
equals sign, an opening parenthesis, any characters, a closing parenthesis,
whitespace, the arrow. -/
def matchConstArrow (l : List Char) : Option (List Char) :=
  match litCI ("const".toList) l with
  | none => none
  | some (_, r1) =>
    if r1.takeWhile isSpace = [] then none
    else if (r1.dropWhile isSpace).takeWhile isWordChar = [] then none
    else
      match ((r1.dropWhile isSpace).dropWhile isWordChar).dropWhile isSpace with
      | '=' :: r4 =>
        match r4.dropWhile isSpace with
        | '(' :: r5 =>
          if hasParenArrow r5 then some ((r1.dropWhile isSpace).takeWhile isWordChar)
          else none
        | _ => none
      | _ => none

/-- Third alternative of the function regex: def, whitespace, a name,
whitespace, an opening parenthesis. -/
def matchDefDecl (l : List Char) : Option (List Char) :=
  match litCI ("def".toList) l with
  | none => none
  | some (_, r1) =>
    if r1.takeWhile isSpace = [] then none
    else if (r1.dropWhile isSpace).takeWhile isWordChar = [] then none
    else
      match ((r1.dropWhile isSpace).dropWhile isWordChar).dropWhile isSpace with
      | '(' :: _ => some ((r1.dropWhile isSpace).takeWhile isWordChar)
      | _ => none

/-- The function regex at one position: the three alternatives in source
order; the captured name is returned. -/
def matchFuncAt (l : List Char) : Option (List Char) :=
  match matchFuncDecl l with
  | some n => some n
  | none =>
    match matchConstArrow l with
    | some n => some n
    | none => matchDefDecl l

/-- Leftmost match of the function regex on a line, returning the captured
function name. -/
def findFuncName : List Char → Option (List Char)
  | [] => matchFuncAt []
  | l@(_ :: rest) =>
    match matchFuncAt l with
    | some n => some n
    | none => findFuncName rest

/-- Name filter of the missing-authorization rule. -/
def sensitiveName (name : List Char) : Bool :=
  containsCI "login" name || containsCI "auth" name ||
  containsCI "getuser" name || containsCI "admin" name

/-- One occurrence of req, any non-line-terminator character, user, at the
head of the input (the dot of the source pattern is unescaped). -/
def reqUserAt (l : List Char) : Bool :=
  match l with
  | r :: e :: q :: c :: u :: s :: e2 :: r2 :: _ =>
    lc r = 'r' && lc e = 'e' && lc q = 'q' && !isLineTerm c &&
    lc u = 'u' && lc s = 's' && lc e2 = 'e' && lc r2 = 'r'
  | _ => false

/-- Anywhere-on-the-line version of the previous test. -/
def containsReqUser : List Char → Bool
  | [] => false
  | l@(_ :: rest) => reqUserAt l || containsReqUser rest

/-- The authorization-keyword test of the source on one line.  The fourth
alternative contains an unescaped dot, so it matches req, any character, user. -/
def authKeywordLine (l : List Char) : Bool :=
  containsCI "role" l || containsCI "authorize" l || containsCI "auth" l ||
  containsReqUser l || containsCI "hasRole" l

/-- The up-to-eight-line window check starting at the definition line. -/
def hasAuthWindow (lines : List (List Char)) (i : Nat) : Bool :=
  ((lines.drop i).take 8).any authKeywordLine

/-- The missing-authorization rule applied to one line. -/
def funcDiagOfLine (lines : List (List Char)) (i : Nat) (line : List Char) :
    Option Diagnostic :=
  match findFuncName line with
  | none => none
  | some name =>
    if sensitiveName name then
      if hasAuthWindow lines i then none
      else
        some ⟨⟨i, 0, i, line.length⟩,
          "Possible missing authorization check in function \"" ++ String.mk name ++ "\".",
          .Warning, "SafePrompt.missing_auth"⟩
    else none

/-- The Pattern Scanner: the secret rule over all lines, then the
missing-authorization rule over all lines, each pushing at most one
diagnostic per line, in line order. -/
def findIssuesWithRegex (text : List Char) : List Diagnostic :=
  ((enumFrom 0 (splitLines text)).filterMap fun p => secretDiagOfLine p.1 p.2) ++
  ((enumFrom 0 (splitLines text)).filterMap fun p =>
    funcDiagOfLine (splitLines text) p.1 p.2)

/-! ### Prompt Extractor -/

/-- The prompt-line regex after the comment marker: whitespace, PROMPT
(case-insensitive), whitespace, a colon, then whitespace-star and a
one-or-more-characters capture anchored at end of line.  The greedy
whitespace-star backtracks just enough for the capture to be nonempty, and
the capture (a dot class) cannot contain a line terminator; the returned
text is the capture trimmed. -/
def promptTail (r : List Char) : Option (List Char) :=
  match litCI ("prompt".toList) (r.dropWhile isSpace) with
  | none => none
  | some (_, r2) =>
    match r2.dropWhile isSpace with
    | ':' :: rest =>
      if rest = [] then none
      else
        if (rest.drop (min (rest.takeWhile isSpace).length (rest.length - 1))).any isLineTerm
        then none
        else some (trimJS (rest.drop (min (rest.takeWhile isSpace).length (rest.length - 1))))
    | _ => none

/-- The prompt-line regex of the source on a full line: anchored leading
whitespace, a comment marker (two slashes or a hash), then the rest of the
pattern; returns the trimmed captured prompt text. -/
def promptMatch (line : List Char) : Option (List Char) :=
  match line.dropWhile isSpace with
  | '/' :: '/' :: r => promptTail r
  | '#' :: r => promptTail r
  | _ => none

/-- The (lineIndex, promptText) view of the extraction loop of
detectAndEnhancePrompts: one pair per matching line, in line order. -/
def extractPrompts (text : List Char) : List (Nat × List Char) :=
  (enumFrom 0 (splitLines text)).filterMap fun p =>
    (promptMatch p.2).map fun s => (p.1, s)

/-- The specification reading of a prompt line, following the words of the
claim: optional whitespace, the marker, optional whitespace, PROMPT
case-insensitively, optional whitespace, a colon, then text r. -/
def PromptLineForm (line r : List Char) : Prop :=
  ∃ w1 mk w2 pr w3, line = w1 ++ mk ++ w2 ++ pr ++ w3 ++ ':' :: r ∧
    (∀ c ∈ w1, isSpace c = true) ∧ (mk = ['/', '/'] ∨ mk = ['#']) ∧
    (∀ c ∈ w2, isSpace c = true) ∧ pr.map lc = "prompt".toList ∧
    (∀ c ∈ w3, isSpace c = true) ∧ r ≠ []

/-- A valid capture decomposition of the text after the colon: leading
whitespace, then a nonempty capture free of line terminators reaching the
end of the line.  The one-or-more-characters capture of the prompt regex is
a dot class, which cannot match a line terminator, so the regex matches the
tail exactly when such a decomposition exists. -/
def PromptCapture (r : List Char) : Prop :=
  ∃ w cap, r = w ++ cap ∧ (∀ c ∈ w, isSpace c = true) ∧ cap ≠ [] ∧
    (∀ c ∈ cap, isLineTerm c = false)

/-! ### Supported document kinds -/

/-- Language gate of the extension. -/
def isTargetDoc (languageId : String) : Bool :=
  languageId = "javascript" || languageId = "javascriptreact" || languageId = "python"

/-! ### Enhancement Client -/

/-- Outcome of the remote chat-completion call: a transport or API error, or
a response whose first candidate content may be absent. -/
inductive RemoteOutcome where
  | err (message : String)
  | ok (content : Option (List Char))

/-- The Enhancement Client: fails when no credential is configured (the
environment variable is unset or empty, both falsy), forwards a remote
error, rejects blank content, and returns the trimmed content otherwise. -/
def getEnhancedPromptFromNvidia (apiKeySet : Bool) (outcome : RemoteOutcome) :
    Except String (List Char) :=
  if !apiKeySet then
    .error "OPENAI_API_KEY is not set (map NVIDIA_API -> OPENAI_API_KEY or set it directly)."
  else
    match outcome with
    | .err m => .error m
    | .ok none => .error "Empty response from NVIDIA model"
    | .ok (some c) =>
      if trimJS c = [] then .error "Empty response from NVIDIA model"
      else .ok (trimJS c)

/-! ### Debounce/Dedup Scheduler and Diagnostic Store -/

/-- Per-document mutable state: the stored enhancement diagnostics and the
truthiness of the keys of the per-document timers map. -/
structure EnhState where
  store : List Diagnostic
  inflight : String → Bool

/-- The in-flight key for a line, as interpolated in the source. -/
def inflightKey (lineNumber : Nat) : String :=
  "inflight_" ++ Nat.repr lineNumber

/-- The synchronous part of triggerEnhancementRequest: a no-op when the
in-flight key is set, otherwise the key is set and the remote call is
dispatched (the returned flag). -/
def triggerEnhancementRequest (st : EnhState) (lineNumber : Nat) : EnhState × Bool :=
  if st.inflight (inflightKey lineNumber) then (st, false)
  else
    (⟨st.store, fun k => if k = inflightKey lineNumber then true else st.inflight k⟩, true)

/-- The Loading diagnostic pushed for each prompt line. -/
def loadingDiag (i : Nat) (line : List Char) : Diagnostic :=
  ⟨⟨i, 0, i, max 1 line.length⟩, "[NVIDIA] Loading enhanced prompt...",
    .Information, "SafePrompt.enhanced_prompt_loading"⟩

/-- The per-line loop of detectAndEnhancePrompts: for each line matching the
prompt regex, push a Loading diagnostic and trigger an enhancement request.
Returns the final state, the pushed diagnostics, and the lines for which a
remote call was dispatched. -/
def detectLoop : EnhState → List (Nat × List Char) → EnhState × List Diagnostic × List Nat
  | st, [] => (st, [], [])
  | st, (i, line) :: rest =>
    match promptMatch line with
    | none => detectLoop st rest
    | some _ =>
      let tr := triggerEnhancementRequest st i
      let rec1 := detectLoop tr.1 rest
      (rec1.1, loadingDiag i line :: rec1.2.1,
        if tr.2 then i :: rec1.2.2 else rec1.2.2)

/-- detectAndEnhancePrompts: early return for unsupported language kinds,
otherwise run the loop and replace the stored enhancement diagnostics
wholesale with the fresh Loading diagnostics.  Returns the new state and the
lines for which a remote call was dispatched. -/
def detectAndEnhancePrompts (st : EnhState) (doc : Document) : EnhState × List Nat :=
  if isTargetDoc doc.languageId then
    (⟨(detectLoop st (enumFrom 0 (splitLines doc.text))).2.1,
      (detectLoop st (enumFrom 0 (splitLines doc.text))).1.inflight⟩,
     (detectLoop st (enumFrom 0 (splitLines doc.text))).2.2)
  else (st, [])

/-- The success diagnostic written when an in-flight request resolves. -/
def successDiag (lineNumber lineLen : Nat) (enhanced : List Char) : Diagnostic :=
  ⟨⟨lineNumber, 0, lineNumber, max 1 lineLen⟩,
    "[NVIDIA] " ++ String.mk enhanced, .Warning, "SafePrompt.enhanced_prompt"⟩

/-- The failure diagnostic written when an in-flight request fails; the catch
block converts the thrown error into this diagnostic. -/
def failureDiag (lineNumber lineLen : Nat) (msg : String) : Diagnostic :=
  ⟨⟨lineNumber, 0, lineNumber, max 1 lineLen⟩,
    "[NVIDIA] Failed to generate enhancement: " ++ msg, .Warning,
    "SafePrompt.enhanced_prompt_failed"⟩

/-- The diagnostic written when an in-flight request resolves: the success
diagnostic for a returned enhancement, the failure diagnostic for a caught
error. -/
def resolveDiag (lineNumber lineLen : Nat) (result : Except String (List Char)) :
    Diagnostic :=
  match result with
  | .ok enhanced => successDiag lineNumber lineLen enhanced
  | .error m => failureDiag lineNumber lineLen m

/-- Resolution of an in-flight request (the async body of
triggerEnhancementRequest after the await): the stored diagnostics for the
line are filtered out, the success or failure diagnostic is pushed, the
in-flight key is deleted (the finally block, on success and on failure
alike), and the merged list with fresh security diagnostics is published.
lineLen is the current length of the line at resolution time. -/
def resolveEnhancement (st : EnhState) (lineNumber lineLen : Nat)
    (result : Except String (List Char)) (text : List Char) :
    EnhState × List Diagnostic :=
  (⟨(st.store.filter fun d => d.range.startLine != lineNumber) ++
      [resolveDiag lineNumber lineLen result],
    fun k => if k = inflightKey lineNumber then false else st.inflight k⟩,
   ((st.store.filter fun d => d.range.startLine != lineNumber) ++
      [resolveDiag lineNumber lineLen result]) ++ findIssuesWithRegex text)

/-- Result of a full scan pass. -/
structure ScanPassResult where
  state : EnhState
  published : List Diagnostic
  remoteCalls : List Nat

/-- runSecurityScanAndEnhanced: the security scan runs on every document,
the prompt pass only on supported kinds, and the published list is the
stored enhancement diagnostics followed by the fresh security diagnostics. -/
def runSecurityScanAndEnhanced (st : EnhState) (doc : Document) : ScanPassResult :=
  ⟨(detectAndEnhancePrompts st doc).1,
   (detectAndEnhancePrompts st doc).1.store ++ findIssuesWithRegex doc.text,
   (detectAndEnhancePrompts st doc).2⟩

/-! ### Quick fix for hardcoded secrets -/

/-- Sanitisation of the environment-variable name: every character outside
capital letters, digits and underscore becomes an underscore. -/
def sanitizeEnv (c : Char) : Char :=
  if ('A' ≤ c && c ≤ 'Z') || ('0' ≤ c && c ≤ '9') || c = '_' then c else '_'

/-- The environment-variable name chosen by the quick fix: the leftmost
secret-kind token of the line, uppercased and sanitised; SECRET if none. -/
def envNameOf (line : List Char) : List Char :=
  match findFrom matchToken line 0 with
  | some (_, tok) => (tok.map Char.toUpper).map sanitizeEnv
  | none => "SECRET".toList

/-- The quoted-literal regex of the quick fix at one position: an opening
quote, one or more non-quote characters, and a backreference closing quote
equal to the opening one. -/
def quoteMatchAt (l : List Char) : Option (List Char × List Char) :=
  match l with
  | c :: rest =>
    if isQuote c then
      match rest.dropWhile (fun x => !isQuote x) with
      | q :: r4 =>
        if rest.takeWhile (fun x => !isQuote x) = [] then none
        else if q = c then
          some (c :: rest.takeWhile (fun x => !isQuote x) ++ [q], r4)
        else none
      | [] => none
    else none
  | [] => none

/-- Index of the last quote character in a list. -/
def lastQuoteIdx (l : List Char) : Option Nat :=
  match l.reverse.findIdx? isQuote with
  | some k => some (l.length - 1 - k)
  | none => none

/-- The fallback replacement regex of the quick fix at one position: an
equals sign, an opening quote, a greedy dot-star (which cannot cross a line
terminator and backtracks to the last reachable quote), and a closing
quote. -/
def eqQuoteMatchAt (l : List Char) : Option (List Char × List Char) :=
  match l with
  | '=' :: q1 :: rest =>
    if isQuote q1 then
      match lastQuoteIdx (rest.takeWhile fun c => !isLineTerm c) with
      | some j => some ('=' :: q1 :: rest.take (j + 1), rest.drop (j + 1))
      | none => none
    else none
  | _ => none

/-- String.prototype.replace with the fallback regex: the first match is
replaced, or the line is returned unchanged when there is none. -/
def jsReplaceEqQuote (line env : List Char) : List Char :=
  match findFrom eqQuoteMatchAt line 0 with
  | some (p, m0) =>
    line.take p ++ ("= process.env.".toList ++ env) ++ line.drop (p + m0.length)
  | none => line

/-- The edit of the hardcoded-secret quick fix applied to the line: when a
same-quote-delimited literal exists, the range from indexOf of the matched
substring through its end is replaced by the environment reference;
otherwise the whole line is replaced by the fallback replacement. -/
def fixLine (line : List Char) : List Char :=
  match findFrom quoteMatchAt line 0 with
  | some (_, m0) =>
    line.take ((indexOfFrom m0 line 0).getD 0) ++ "process.env.".toList ++
      envNameOf line ++ line.drop ((indexOfFrom m0 line 0).getD 0 + m0.length)
  | none => jsReplaceEqQuote line (envNameOf line)

/-- A quick-fix action: the rewritten line and the rescan command attached
to the fix. -/
structure QuickFix where
  newLineText : List Char
  rescan : Bool
deriving DecidableEq

/-- The code-action provider for hardcoded secrets: one fix per diagnostic
with the hardcoded-secret code, each carrying the edit and the rescan
command. -/
def provideSecretActions (contextDiags : List Diagnostic) (line : List Char) :
    List QuickFix :=
  (contextDiags.filter fun d => d.code == "SafePrompt.hardcoded_secret").map
    fun _ => ⟨fixLine line, true⟩

/-- The diagnostics of a list lying on a given start line. -/
def diagsAtLine (ds : List Diagnostic) (i : Nat) : List Diagnostic :=
  ds.filter fun d => d.range.startLine == i

/-- The store invariant of the Diagnostic Store: no two stored enhancement
diagnostics share a start line. -/
def NoDupLines (ds : List Diagnostic) : Prop :=
  List.Pairwise (fun d1 d2 => d1.range.startLine ≠ d2.range.startLine) ds

/-! ### Specification-side readings used by claims C1 and C2 -/

/-- A decomposition of a line as the words of claim C1 describe the secret
pattern: somewhere on the line, a case-insensitive secret-kind token, then
(possibly after whitespace) a colon or an equals sign, then (possibly after
whitespace) an opening quote, the literal's content free of quote
characters, and a closing quote (which the source regex does not require to
match the opening one). -/
def SecretDecomp (line tok content : List Char) : Prop :=
  ∃ a w1 sep w2 q1 q2 b,
    line = a ++ (tok ++ (w1 ++ (sep :: (w2 ++ (q1 :: (content ++ (q2 :: b))))))) ∧
    (tok.map lc = "api_key".toList ∨ tok.map lc = "apikey".toList ∨
      tok.map lc = "api-key".toList ∨ tok.map lc = "secret".toList ∨
      tok.map lc = "token".toList) ∧
    (sep = ':' ∨ sep = '=') ∧
    (∀ c ∈ w1, isSpace c = true) ∧ (∀ c ∈ w2, isSpace c = true) ∧
    isQuote q1 = true ∧ isQuote q2 = true ∧
    (∀ c ∈ content, isQuote c = false)

/-- The secret pattern as the words of claim C1 read literally: a token
followed by a separator followed by a quoted literal, which may be empty. -/
def SecretLineFormLiteral (line : List Char) : Prop :=
  ∃ tok content, SecretDecomp line tok content

/-- The secret pattern as amended: the quoted literal holds at least one
character, matching the one-or-more repetition of the source regex. -/
def SecretLineForm (line : List Char) : Prop :=
  ∃ tok content, SecretDecomp line tok content ∧ content ≠ []



/-- The authorization-keyword test as the words of claim C2 read literally:
the line contains one of the five keywords, the fourth being the literal
text req.user with a dot character. -/
def specAuthKeywordLiteral (l : List Char) : Bool :=
  containsCI "role" l || containsCI "authorize" l || containsCI "auth" l ||
  containsCI "req.user" l || containsCI "hasRole" l

/-! ### Basic list lemmas -/

theorem mem_takeWhile_sat {p : Char → Bool} :
    ∀ {l : List Char} {x : Char}, x ∈ l.takeWhile p → p x = true := by
  intro l
  induction l with
  | nil => intro x h; simp [List.takeWhile] at h
  | cons c rest ih =>
    intro x h
    by_cases hc : p c
    · rw [List.takeWhile_cons_of_pos hc] at h
      rcases List.mem_cons.mp h with h1 | h2
      · rw [h1]; exact hc
      · exact ih h2
    · rw [List.takeWhile_cons_of_neg hc] at h
      simp at h

theorem dropWhile_head_false {p : Char → Bool} :
    ∀ {l : List Char} {c : Char} {r : List Char},
      l.dropWhile p = c :: r → p c = false := by
  intro l
  induction l with
  | nil => intro c r h; simp [List.dropWhile] at h
  | cons a rest ih =>
    intro c r h
    by_cases ha : p a
    · rw [List.dropWhile_cons_of_pos ha] at h; exact ih h
    · rw [List.dropWhile_cons_of_neg ha] at h
      cases h
      exact eq_false_of_ne_true ha

theorem dropWhile_all_append {p : Char → Bool} :
    ∀ {w t : List Char}, (∀ x ∈ w, p x = true) →
      (w ++ t).dropWhile p = t.dropWhile p := by
  intro w
  induction w with
  | nil => intro t _; rfl
  | cons a rest ih =>
    intro t hall
    have ha : p a = true := hall a (List.mem_cons_self a rest)
    rw [List.cons_append, List.dropWhile_cons_of_pos ha]
    exact ih fun x hx => hall x (List.mem_cons_of_mem a hx)

theorem dropWhile_of_all_append {p : Char → Bool} {w t : List Char} {c : Char}
    (hall : ∀ x ∈ w, p x = true) (hc : p c = false) :
    (w ++ c :: t).dropWhile p = c :: t := by
  rw [dropWhile_all_append hall, List.dropWhile_cons_of_neg (by simp [hc])]

theorem takeWhile_of_all_append {p : Char → Bool} :
    ∀ {w t : List Char} {c : Char}, (∀ x ∈ w, p x = true) → p c = false →
      (w ++ c :: t).takeWhile p = w := by
  intro w
  induction w with
  | nil =>
    intro t c _ hc
    rw [List.nil_append, List.takeWhile_cons_of_neg (by simp [hc])]
  | cons a rest ih =>
    intro t c hall hc
    have ha : p a = true := hall a (List.mem_cons_self a rest)
    rw [List.cons_append, List.takeWhile_cons_of_pos ha]
    rw [ih (fun x hx => hall x (List.mem_cons_of_mem a hx)) hc]

theorem dropWhile_idem {p : Char → Bool} {l : List Char} :
    (l.dropWhile p).dropWhile p = l.dropWhile p := by
  cases h : l.dropWhile p with
  | nil => rfl
  | cons c r =>
    rw [List.dropWhile_cons_of_neg (by simp [dropWhile_head_false h])]

theorem dropWhile_eq_drop_length {p : Char → Bool} :
    ∀ {l : List Char}, l.dropWhile p = l.drop (l.takeWhile p).length := by
  intro l
  induction l with
  | nil => rfl
  | cons a rest ih =>
    by_cases ha : p a
    · rw [List.dropWhile_cons_of_pos ha, List.takeWhile_cons_of_pos ha]
      simpa using ih
    · rw [List.dropWhile_cons_of_neg ha, List.takeWhile_cons_of_neg ha]
      rfl

theorem takeWhile_all_of_length {p : Char → Bool} {l : List Char}
    (h : (l.takeWhile p).length = l.length) : ∀ x ∈ l, p x = true := by
  have hd : l.dropWhile p = [] := by
    rw [dropWhile_eq_drop_length, h, List.drop_length]
  intro x hx
  have := List.takeWhile_append_dropWhile (p := p) (l := l)
  rw [hd, List.append_nil] at this
  exact mem_takeWhile_sat (this ▸ hx)

theorem get?_drop_cons :
    ∀ {l : List (List Char)} {i : Nat} {x : List Char},
      l.get? i = some x → ∃ t, l.drop i = x :: t := by
  intro l
  induction l with
  | nil => intro i x h; simp at h
  | cons a rest ih =>
    intro i x h
    cases i with
    | zero => cases h; exact ⟨rest, rfl⟩
    | succ n => exact ih h

theorem isPrefixB_iff : ∀ {p l : List Char}, isPrefixB p l = true ↔ ∃ t, l = p ++ t := by
  intro p
  induction p with
  | nil => intro l; simp [isPrefixB]
  | cons a ps ih =>
    intro l
    cases l with
    | nil =>
      simp only [isPrefixB]
      constructor
      · intro h; cases h
      · rintro ⟨t, ht⟩; cases ht
    | cons c cs =>
      simp only [isPrefixB, Bool.and_eq_true, decide_eq_true_eq]
      constructor
      · rintro ⟨rfl, h2⟩
        rcases ih.mp h2 with ⟨t, rfl⟩
        exact ⟨t, rfl⟩
      · rintro ⟨t, ht⟩
        rw [List.cons_append] at ht
        cases ht
        exact ⟨rfl, ih.mpr ⟨t, rfl⟩⟩

theorem isPrefixB_append_self {p t : List Char} : isPrefixB p (p ++ t) = true :=
  isPrefixB_iff.mpr ⟨t, rfl⟩

theorem containsSubB_iff :
    ∀ {q l : List Char}, containsSubB q l = true ↔ ∃ a b, l = a ++ q ++ b := by
  intro q l
  induction l with
  | nil =>
    simp only [containsSubB, isPrefixB_iff]
    constructor
    · rintro ⟨t, ht⟩; exact ⟨[], t, by simpa using ht⟩
    · rintro ⟨a, b, h⟩
      rcases List.append_eq_nil.mp (List.append_eq_nil.mp h.symm).1 with ⟨_, h2⟩
      exact ⟨b, by simp [h2, (List.append_eq_nil.mp h.symm).2]⟩
  | cons c rest ih =>
    simp only [containsSubB, Bool.or_eq_true]
    constructor
    · rintro (h | h)
      · rcases isPrefixB_iff.mp h with ⟨t, ht⟩
        exact ⟨[], t, by simpa using ht⟩
      · rcases ih.mp h with ⟨a, b, hab⟩
        exact ⟨c :: a, b, by simp [hab]⟩
    · rintro ⟨a, b, hab⟩
      cases a with
      | nil =>
        left
        exact isPrefixB_iff.mpr ⟨b, by simpa using hab⟩
      | cons a0 as =>
        right
        rw [List.cons_append, List.cons_append] at hab
        cases hab
        exact ih.mpr ⟨as, b, rfl⟩

theorem containsCI_mono {pat : String} {inner outer : List Char}
    (hsub : ∃ a b, outer = a ++ inner ++ b) (h : containsCI pat inner = true) :
    containsCI pat outer = true := by
  rcases hsub with ⟨a, b, rfl⟩
  rcases containsSubB_iff.mp h with ⟨x, y, hxy⟩
  unfold containsCI at *
  refine containsSubB_iff.mpr ⟨a.map lc ++ x, y ++ b.map lc, ?_⟩
  simp [hxy]

/-! ### Lemmas on the elementary matchers -/

theorem lit_split :
    ∀ {pat l m r : List Char}, litCI pat l = some (m, r) → l = m ++ r := by
  intro pat
  induction pat with
  | nil =>
    intro l m r h
    simp only [litCI, Option.some.injEq, Prod.mk.injEq] at h
    obtain ⟨h1, h2⟩ := h
    subst h1; subst h2; rfl
  | cons p ps ih =>
    intro l m r h
    cases l with
    | nil => simp [litCI] at h
    | cons c cs =>
      simp only [litCI] at h
      by_cases hc : lc c = lc p
      · rw [if_pos hc] at h
        cases hlit : litCI ps cs with
        | none => rw [hlit] at h; cases h
        | some pr =>
          rw [hlit] at h
          cases pr with
          | mk m2 r2 =>
            cases h
            have := ih hlit
            simp [this]
      · rw [if_neg hc] at h; cases h

theorem lit_lc :
    ∀ {pat l m r : List Char}, litCI pat l = some (m, r) → m.map lc = pat.map lc := by
  intro pat
  induction pat with
  | nil =>
    intro l m r h
    simp only [litCI, Option.some.injEq, Prod.mk.injEq] at h
    obtain ⟨h1, h2⟩ := h
    subst h1; subst h2; rfl
  | cons p ps ih =>
    intro l m r h
    cases l with
    | nil => simp [litCI] at h
    | cons c cs =>
      simp only [litCI] at h
      by_cases hc : lc c = lc p
      · rw [if_pos hc] at h
        cases hlit : litCI ps cs with
        | none => rw [hlit] at h; cases h
        | some pr =>
          rw [hlit] at h
          cases pr with
          | mk m2 r2 =>
            cases h
            simp [List.map_cons, hc, ih hlit]
      · rw [if_neg hc] at h; cases h

theorem lit_of_lcEq :
    ∀ {pat m : List Char}, m.map lc = pat.map lc →
      ∀ t, litCI pat (m ++ t) = some (m, t) := by
  intro pat
  induction pat with
  | nil =>
    intro m hm t
    have : m = [] := by simpa using hm
    simp [this, litCI]
  | cons p ps ih =>
    intro m hm t
    cases m with
    | nil => simp at hm
    | cons c cs =>
      simp only [List.map_cons, List.cons.injEq] at hm
      simp [litCI, hm.1, ih hm.2 t]

theorem lit_stable {pat l m r : List Char} (h : litCI pat l = some (m, r)) :
    ∀ t, litCI pat (m ++ t) = some (m, t) :=
  lit_of_lcEq (lit_lc h)

theorem ws_split {q : Char → Bool} {l m r : List Char}
    (h : wsThen q l = some (m, r)) : l = m ++ r := by
  unfold wsThen at h
  split at h
  next c rest hd =>
    split at h
    · cases h
      conv_lhs => rw [← List.takeWhile_append_dropWhile (p := isSpace) (l := l)]
      rw [hd]
      simp
    · cases h
  next => cases h

theorem ws_stable {q : Char → Bool} {l m r : List Char}
    (h : wsThen q l = some (m, r)) : ∀ t, wsThen q (m ++ t) = some (m, t) := by
  intro t
  unfold wsThen at h
  split at h
  next c rest hd =>
    split at h
    next hq =>
      cases h
      have hw : ∀ x ∈ l.takeWhile isSpace, isSpace x = true := fun x hx => mem_takeWhile_sat hx
      have hc : isSpace c = false := dropWhile_head_false hd
      unfold wsThen
      rw [List.append_assoc, List.singleton_append,
        dropWhile_of_all_append hw hc, takeWhile_of_all_append hw hc]
      simp [hq]
    next => cases h
  next => cases h

/-! ### Lemmas on the secret-kind token matcher -/

theorem apiKey_split {l m r : List Char} (h : matchApiKey l = some (m, r)) :
    l = m ++ r := by
  unfold matchApiKey at h
  split at h
  next => cases h
  next m1 r1 h1 =>
    split at h
    next c r2 =>
      split at h
      next hsep =>
        split at h
        next => cases h
        next m2 r3 h2 =>
          cases h
          simp [lit_split h1, lit_split h2]
      next hsep =>
        split at h
        next => cases h
        next m2 r3 h2 =>
          cases h
          simp [lit_split h1, lit_split h2]
    next => cases h

theorem lit_append_pat :
    ∀ {p1 p2 l m r : List Char}, litCI (p1 ++ p2) l = some (m, r) →
      ∃ m1 m2, m = m1 ++ m2 ∧ litCI p1 l = some (m1, m2 ++ r) ∧
        litCI p2 (m2 ++ r) = some (m2, r) := by
  intro p1
  induction p1 with
  | nil =>
    intro p2 l m r h
    have hl := lit_split h
    refine ⟨[], m, by simp, ?_, ?_⟩
    · rw [← hl]; simp [litCI]
    · rw [← hl]; exact h
  | cons p ps ih =>
    intro p2 l m r h
    cases l with
    | nil => cases h
    | cons c cs =>
      simp only [List.cons_append, litCI, List.append_eq] at h
      by_cases hc : lc c = lc p
      · rw [if_pos hc] at h
        cases hrec : litCI (ps ++ p2) cs with
        | none => rw [hrec] at h; cases h
        | some pr =>
          rw [hrec] at h
          cases pr with
          | mk m' r' =>
            cases h
            obtain ⟨m1, m2, hm, h1, h2⟩ := ih hrec
            refine ⟨c :: m1, m2, by simp [hm], ?_, h2⟩
            simp [litCI, hc, h1]
      · rw [if_neg hc] at h; cases h

theorem apiKey_stable {l m r : List Char} (h : matchApiKey l = some (m, r)) :
    ∀ t, matchApiKey (m ++ t) = some (m, t) := by
  intro t
  unfold matchApiKey at h ⊢
  split at h
  next => cases h
  next m1 r1 h1 =>
    split at h
    next c r2 =>
      split at h
      next hsep =>
        split at h
        next => cases h
        next m2 r3 h2 =>
          cases h
          have e1 : (m1 ++ c :: m2) ++ t = m1 ++ (c :: (m2 ++ t)) := by simp
          rw [e1, lit_stable h1]
          have h2' : litCI ['k', 'e', 'y'] (m2 ++ t) = some (m2, t) := lit_stable h2 t
          simp [hsep, h2']
      next hsep =>
        split at h
        next => cases h
        next m2 r3 h2 =>
          cases h
          have hm2 : m2.map lc = ("key".toList).map lc := lit_lc h2
          have hkey : ("key".toList).map lc = ['k', 'e', 'y'] := by decide
          rw [hkey] at hm2
          cases m2 with
          | nil => cases hm2
          | cons k ks =>
            simp only [List.map_cons, List.cons.injEq] at hm2
            have hk : lc k = 'k' := hm2.1
            have hk1 : k ≠ '_' := by
              intro e; rw [e] at hk; exact absurd hk (by decide)
            have hk2 : k ≠ '-' := by
              intro e; rw [e] at hk; exact absurd hk (by decide)
            have e1 : (m1 ++ k :: ks) ++ t = m1 ++ (k :: (ks ++ t)) := by simp
            rw [e1, lit_stable h1]
            have h2' : litCI ['k', 'e', 'y'] (k :: (ks ++ t)) = some (k :: ks, t) :=
              lit_stable h2 t
            simp [hk1, hk2, h2']
    next => cases h

theorem apikey_imp_apiKey {l m r : List Char}
    (h : litCI ("apikey".toList) l = some (m, r)) : matchApiKey l = some (m, r) := by
  have hsplitpat : ("apikey".toList) = ("api".toList) ++ ("key".toList) := by decide
  rw [hsplitpat] at h
  obtain ⟨m1, m2, hm, h1, h2⟩ := lit_append_pat h
  have hm2 : m2.map lc = ("key".toList).map lc := lit_lc h2
  have hkey : ("key".toList).map lc = ['k', 'e', 'y'] := by decide
  rw [hkey] at hm2
  cases m2 with
  | nil => cases hm2
  | cons k ks =>
    simp only [List.map_cons, List.cons.injEq] at hm2
    have hk : lc k = 'k' := hm2.1
    have hk1 : k ≠ '_' := by
      intro e; rw [e] at hk; exact absurd hk (by decide)
    have hk2 : k ≠ '-' := by
      intro e; rw [e] at hk; exact absurd hk (by decide)
    unfold matchApiKey
    rw [h1]
    have h2' : litCI ['k', 'e', 'y'] (k :: (ks ++ r)) = some (k :: ks, r) := h2
    simp [hm, hk1, hk2, h2']

theorem lit_head_ne {p c : Char} {ps cs : List Char} (h : lc c ≠ lc p) :
    litCI (p :: ps) (c :: cs) = none := by
  simp [litCI, h]

theorem token_split {l m r : List Char} (h : matchToken l = some (m, r)) :
    l = m ++ r := by
  unfold matchToken at h
  split at h
  next res h1 =>
    cases h
    exact apiKey_split h1
  next =>
    split at h
    next res h2 =>
      cases h
      exact lit_split h2
    next =>
      split at h
      next res h3 =>
        cases h
        exact lit_split h3
      next => exact lit_split h

theorem token_stable {l m r : List Char} (h : matchToken l = some (m, r)) :
    ∀ t, matchToken (m ++ t) = some (m, t) := by
  intro t
  unfold matchToken at h
  split at h
  next res h1 =>
    cases h
    unfold matchToken
    rw [apiKey_stable h1 t]
  next h1 =>
    split at h
    next res h2 =>
      cases h
      have := apikey_imp_apiKey h2
      rw [h1] at this
      cases this
    next h2 =>
      split at h
      next res h3 =>
        cases h
        have hm : m.map lc = ("secret".toList).map lc := lit_lc h3
        have hs : ("secret".toList).map lc = ['s', 'e', 'c', 'r', 'e', 't'] := by decide
        rw [hs] at hm
        cases m with
        | nil => cases hm
        | cons s0 ms =>
          simp only [List.map_cons, List.cons.injEq] at hm
          have hs0 : lc s0 = 's' := hm.1
          have hapi : litCI ['a', 'p', 'i'] (s0 :: (ms ++ t)) = none :=
            lit_head_ne (by rw [hs0]; decide)
          have hapikey : litCI ['a', 'p', 'i', 'k', 'e', 'y'] (s0 :: (ms ++ t)) = none :=
            lit_head_ne (by rw [hs0]; decide)
          have hsec : litCI ['s', 'e', 'c', 'r', 'e', 't'] (s0 :: (ms ++ t)) = some (s0 :: ms, t) :=
            lit_stable h3 t
          unfold matchToken matchApiKey
          simp only [List.cons_append]
          simp [hapi, hapikey, hsec]
      next h3 =>
        have hm : m.map lc = ("token".toList).map lc := lit_lc h
        have hs : ("token".toList).map lc = ['t', 'o', 'k', 'e', 'n'] := by decide
        rw [hs] at hm
        cases m with
        | nil => cases hm
        | cons t0 ms =>
          simp only [List.map_cons, List.cons.injEq] at hm
          have ht0 : lc t0 = 't' := hm.1
          have hapi : litCI ['a', 'p', 'i'] (t0 :: (ms ++ t)) = none :=
            lit_head_ne (by rw [ht0]; decide)
          have hapikey : litCI ['a', 'p', 'i', 'k', 'e', 'y'] (t0 :: (ms ++ t)) = none :=
            lit_head_ne (by rw [ht0]; decide)
          have hsec : litCI ['s', 'e', 'c', 'r', 'e', 't'] (t0 :: (ms ++ t)) = none :=
            lit_head_ne (by rw [ht0]; decide)
          have htok : litCI ['t', 'o', 'k', 'e', 'n'] (t0 :: (ms ++ t)) = some (t0 :: ms, t) :=
            lit_stable h t
          unfold matchToken matchApiKey
          simp only [List.cons_append]
          simp [hapi, hapikey, hsec, htok]

theorem secret_split {l m r : List Char} (h : matchSecretAt l = some (m, r)) :
    l = m ++ r := by
  unfold matchSecretAt at h
  split at h
  next => cases h
  next m1 r1 h1 =>
    split at h
    next => cases h
    next m2 r2 h2 =>
      split at h
      next => cases h
      next m3 r3 h3 =>
        split at h
        next q r4 hdw =>
          split at h
          next => cases h
          next hne =>
            cases h
            have e3 : r3 = r3.takeWhile (fun c => !isQuote c) ++ (q :: r) := by
              conv_lhs =>
                rw [← List.takeWhile_append_dropWhile
                  (p := fun c => !isQuote c) (l := r3)]
              rw [hdw]
            rw [token_split h1, ws_split h2, ws_split h3]
            conv_lhs => rw [e3]
            simp
        next => cases h

theorem secret_stable {l m r : List Char} (h : matchSecretAt l = some (m, r)) :
    ∀ t, matchSecretAt (m ++ t) = some (m, t) := by
  intro t
  unfold matchSecretAt at h
  split at h
  next => cases h
  next m1 r1 h1 =>
    split at h
    next => cases h
    next m2 r2 h2 =>
      split at h
      next => cases h
      next m3 r3 h3 =>
        split at h
        next q r4 hdw =>
          split at h
          next => cases h
          next hne =>
            cases h
            have hqt : isQuote q = true := by
              have := dropWhile_head_false hdw
              simpa using this
            have hcontent : ∀ x ∈ r3.takeWhile (fun c => !isQuote c),
                (fun c => !isQuote c) x = true :=
              fun x hx => mem_takeWhile_sat hx
            have htake : (r3.takeWhile (fun c => !isQuote c) ++ (q :: t)).takeWhile
                (fun c => !isQuote c) = r3.takeWhile (fun c => !isQuote c) :=
              takeWhile_of_all_append hcontent (by simp [hqt])
            have hdrop : (r3.takeWhile (fun c => !isQuote c) ++ (q :: t)).dropWhile
                (fun c => !isQuote c) = q :: t :=
              dropWhile_of_all_append hcontent (by simp [hqt])
            have e : (m1 ++ m2 ++ m3 ++ r3.takeWhile (fun c => !isQuote c) ++ [q]) ++ t =
                m1 ++ (m2 ++ (m3 ++ (r3.takeWhile (fun c => !isQuote c) ++ (q :: t)))) := by
              simp
            unfold matchSecretAt
            rw [e]
            simp [token_stable h1, ws_stable h2, ws_stable h3, htake, hdrop, hne]
        next => cases h

/-! ### Leftmost-match search and indexOf -/

theorem findFrom_match {M : List Char → Option (List Char × List Char)} :
    ∀ {l : List Char} {i p : Nat} {m0 : List Char},
      findFrom M l i = some (p, m0) →
      ∃ k r, p = i + k ∧ M (l.drop k) = some (m0, r) := by
  intro l
  induction l with
  | nil =>
    intro i p m0 h
    simp only [findFrom] at h
    split at h
    next m rr hM =>
      cases h
      exact ⟨0, rr, by simp, by simpa using hM⟩
    next => cases h
  | cons c rest ih =>
    intro i p m0 h
    simp only [findFrom] at h
    split at h
    next m rr hM =>
      cases h
      exact ⟨0, rr, by simp, by simpa using hM⟩
    next hM =>
      obtain ⟨k, rr, hp, hmatch⟩ := ih h
      exact ⟨k + 1, rr, by omega, by simpa using hmatch⟩

theorem findFrom_indexOf {M : List Char → Option (List Char × List Char)}
    (hsplit : ∀ {l m r : List Char}, M l = some (m, r) → l = m ++ r)
    (hstable : ∀ {l m r : List Char}, M l = some (m, r) → ∀ t, M (m ++ t) = some (m, t)) :
    ∀ {l : List Char} {i p : Nat} {m0 : List Char},
      findFrom M l i = some (p, m0) → indexOfFrom m0 l i = some p := by
  intro l
  induction l with
  | nil =>
    intro i p m0 h
    simp only [findFrom] at h
    split at h
    next m rr hM =>
      cases h
      have hnil := hsplit hM
      have hm0 : m0 = [] := (List.append_eq_nil.mp hnil.symm).1
      simp [indexOfFrom, hm0, isPrefixB]
    next => cases h
  | cons c rest ih =>
    intro i p m0 h
    simp only [findFrom] at h
    split at h
    next m rr hM =>
      cases h
      have hl := hsplit hM
      simp only [indexOfFrom]
      rw [if_pos (by rw [hl]; exact isPrefixB_append_self)]
    next hM =>
      obtain ⟨k, rr, hp, hmatch⟩ := findFrom_match (M := M) h
      have hnp : ¬ isPrefixB m0 (c :: rest) = true := by
        intro hb
        rcases isPrefixB_iff.mp hb with ⟨tt, htt⟩
        have hsome := hstable hmatch tt
        rw [← htt, hM] at hsome
        cases hsome
      simp only [indexOfFrom]
      rw [if_neg hnp]
      exact ih h

/-! ### Lemmas on the quick-fix quote matcher -/

theorem quote_split {l m r : List Char} (h : quoteMatchAt l = some (m, r)) :
    l = m ++ r := by
  unfold quoteMatchAt at h
  split at h
  next c rest =>
    split at h
    next hq =>
      split at h
      next q r4 hdw =>
        split at h
        next => cases h
        next hne =>
          split at h
          next hqc =>
            cases h
            have e : rest = rest.takeWhile (fun x => !isQuote x) ++ (q :: r) := by
              conv_lhs =>
                rw [← List.takeWhile_append_dropWhile
                  (p := fun x => !isQuote x) (l := rest)]
              rw [hdw]
            conv_lhs => rw [e]
            simp
          next => cases h
      next => cases h
    next => cases h
  next => cases h

theorem quote_stable {l m r : List Char} (h : quoteMatchAt l = some (m, r)) :
    ∀ t, quoteMatchAt (m ++ t) = some (m, t) := by
  intro t
  unfold quoteMatchAt at h
  split at h
  next c rest =>
    split at h
    next hq =>
      split at h
      next q r4 hdw =>
        split at h
        next => cases h
        next hne =>
          split at h
          next hqc =>
            cases h
            subst hqc
            have hcontent : ∀ x ∈ rest.takeWhile (fun x => !isQuote x),
                (fun x => !isQuote x) x = true := fun x hx => mem_takeWhile_sat hx
            have htake := takeWhile_of_all_append (t := t) (c := q) hcontent (by simp [hq])
            have hdrop := dropWhile_of_all_append (t := t) (c := q) hcontent (by simp [hq])
            have e : (q :: rest.takeWhile (fun x => !isQuote x) ++ [q]) ++ t =
                q :: (rest.takeWhile (fun x => !isQuote x) ++ (q :: t)) := by simp
            unfold quoteMatchAt
            rw [e]
            simp [hq, htake, hdrop, hne]
          next => cases h
      next => cases h
    next => cases h
  next => cases h

/-! ### Generic lemmas on indexed filterMap over the lines of a document -/

theorem mem_filterMap_enum_key {α β : Type} {f : Nat → α → Option β} {k : β → Nat}
    (hkey : ∀ j a b, f j a = some b → k b = j) :
    ∀ {xs : List α} {n : Nat} {b : β},
      b ∈ (enumFrom n xs).filterMap (fun p => f p.1 p.2) → n ≤ k b := by
  intro xs
  induction xs with
  | nil => intro n b h; cases h
  | cons x rest ih =>
    intro n b h
    simp only [enumFrom, List.filterMap_cons] at h
    cases hf : f n x with
    | none =>
      rw [hf] at h
      exact Nat.le_of_succ_le (ih h)
    | some b0 =>
      rw [hf] at h
      rcases List.mem_cons.mp h with h1 | h2
      · rw [h1, hkey n x b0 hf]
      · exact Nat.le_of_succ_le (ih h2)

theorem filterMap_enum_at {α β : Type} {f : Nat → α → Option β} {k : β → Nat}
    (hkey : ∀ j a b, f j a = some b → k b = j) :
    ∀ {xs : List α} {n i : Nat} {x : α}, xs.get? i = some x →
      ((enumFrom n xs).filterMap (fun p => f p.1 p.2)).filter
          (fun b => k b == n + i) = (f (n + i) x).toList := by
  intro xs
  induction xs with
  | nil => intro n i x h; cases h
  | cons a rest ih =>
    intro n i x h
    cases i with
    | zero =>
      cases h
      rw [Nat.add_zero]
      simp only [enumFrom, List.filterMap_cons]
      have htail : ((enumFrom (n + 1) rest).filterMap (fun p => f p.1 p.2)).filter
          (fun b => k b == n) = [] := by
        rw [List.filter_eq_nil_iff]
        intro b hb
        have := mem_filterMap_enum_key hkey hb
        simp only [beq_iff_eq]
        omega
      cases hf : f n a with
      | none => simpa using htail
      | some b0 =>
        have hkb : k b0 = n := hkey n a b0 hf
        rw [List.filter_cons, if_pos (by simp [hkb])]
        rw [htail]
        rfl
    | succ i2 =>
      simp only [enumFrom, List.filterMap_cons]
      have hstep : n + (i2 + 1) = (n + 1) + i2 := by omega
      cases hf : f n a with
      | none =>
        rw [hstep]
        exact ih h
      | some b0 =>
        have hkb : k b0 = n := hkey n a b0 hf
        rw [List.filter_cons, if_neg (by simp only [hkb, beq_iff_eq]; omega)]
        rw [hstep]
        exact ih h

theorem filterMap_enum_pairwise {α β : Type} {f : Nat → α → Option β} {k : β → Nat}
    (hkey : ∀ j a b, f j a = some b → k b = j) :
    ∀ (xs : List α) (n : Nat),
      List.Pairwise (fun b1 b2 => k b1 < k b2)
        ((enumFrom n xs).filterMap (fun p => f p.1 p.2)) := by
  intro xs
  induction xs with
  | nil => intro n; simp [enumFrom]
  | cons a rest ih =>
    intro n
    simp only [enumFrom, List.filterMap_cons]
    cases hf : f n a with
    | none => exact ih (n + 1)
    | some b0 =>
      refine List.Pairwise.cons ?_ (ih (n + 1))
      intro b hb
      have := mem_filterMap_enum_key hkey hb
      rw [hkey n a b0 hf]
      omega

/-! ### Key and code properties of the per-line diagnostic generators -/

theorem secretDiag_key {i : Nat} {line : List Char} {d : Diagnostic}
    (h : secretDiagOfLine i line = some d) : d.range.startLine = i := by
  unfold secretDiagOfLine at h
  split at h
  next => cases h
  next p m0 hf => cases h; rfl

theorem secretDiag_code {i : Nat} {line : List Char} {d : Diagnostic}
    (h : secretDiagOfLine i line = some d) : d.code = "SafePrompt.hardcoded_secret" := by
  unfold secretDiagOfLine at h
  split at h
  next => cases h
  next p m0 hf => cases h; rfl

theorem funcDiag_key {lines : List (List Char)} {i : Nat} {line : List Char} {d : Diagnostic}
    (h : funcDiagOfLine lines i line = some d) : d.range.startLine = i := by
  unfold funcDiagOfLine at h
  split at h
  next => cases h
  next name hf =>
    split at h
    next =>
      split at h
      next => cases h
      next => cases h; rfl
    next => cases h

theorem funcDiag_code {lines : List (List Char)} {i : Nat} {line : List Char} {d : Diagnostic}
    (h : funcDiagOfLine lines i line = some d) : d.code = "SafePrompt.missing_auth" := by
  unfold funcDiagOfLine at h
  split at h
  next => cases h
  next name hf =>
    split at h
    next =>
      split at h
      next => cases h
      next => cases h; rfl
    next => cases h

/-! ### Lemmas on whitespace, trimming and the prompt capture -/

theorem isSpace_false_of_range {c : Char} (h1 : 65 ≤ c.toNat) (h2 : c.toNat ≤ 90) :
    isSpace c = false := by
  have hb : ∀ (d : Char), d.toNat < 65 ∨ 90 < d.toNat → decide (c = d) = false := by
    intro d hd
    apply decide_eq_false
    intro e
    subst e
    omega
  unfold isSpace
  rw [hb ' ' (by decide), hb '\t' (by decide), hb '\n' (by decide), hb '\r' (by decide),
    hb '\x0b' (by decide), hb '\x0c' (by decide), hb ' ' (by decide),
    hb ' ' (by decide), hb ' ' (by decide), hb ' ' (by decide),
    hb ' ' (by decide), hb ' ' (by decide), hb '　' (by decide),
    hb '﻿' (by decide)]
  have hr : decide (0x2000 ≤ c.toNat) = false := decide_eq_false (by omega)
  rw [hr]
  simp

theorem not_space_of_lc_p {c : Char} (h : lc c = 'p') : isSpace c = false := by
  have h2 : (if c.toNat ≥ 65 ∧ c.toNat ≤ 90 then Char.ofNat (c.toNat + 32) else c) = 'p' := h
  split at h2
  next hcond => exact isSpace_false_of_range hcond.1 hcond.2
  next => rw [h2]; decide

theorem dropWhile_all_nil {p : Char → Bool} {l : List Char}
    (h : ∀ x ∈ l, p x = true) : l.dropWhile p = [] := by
  induction l with
  | nil => rfl
  | cons a rest ih =>
    rw [List.dropWhile_cons_of_pos (h a (List.mem_cons_self a rest))]
    exact ih fun x hx => h x (List.mem_cons_of_mem a hx)

theorem trimJS_dropWhile {l : List Char} : trimJS (l.dropWhile isSpace) = trimJS l := by
  unfold trimJS
  rw [dropWhile_idem]

theorem trimJS_all_space {l : List Char} (h : ∀ x ∈ l, isSpace x = true) :
    trimJS l = [] := by
  unfold trimJS
  rw [dropWhile_all_nil h]
  rfl

theorem mem_of_mem_drop {l : List Char} {n : Nat} {x : Char} (h : x ∈ l.drop n) :
    x ∈ l := by
  have e := List.take_append_drop n l
  rw [← e]
  exact List.mem_append_right _ h

theorem mem_of_mem_dropWhile {p : Char → Bool} {l : List Char} {x : Char}
    (h : x ∈ l.dropWhile p) : x ∈ l := by
  have e := List.takeWhile_append_dropWhile (p := p) (l := l)
  rw [← e]
  exact List.mem_append_right _ h

theorem any_false_iff {p : Char → Bool} :
    ∀ {l : List Char}, l.any p = false ↔ ∀ x ∈ l, p x = false := by
  intro l
  induction l with
  | nil => simp
  | cons a rest ih =>
    simp only [List.any_cons, Bool.or_eq_false_iff, ih]
    constructor
    · rintro ⟨h1, h2⟩ x hx
      rcases List.mem_cons.mp hx with h3 | h3
      · rw [h3]; exact h1
      · exact h2 x h3
    · intro hall
      exact ⟨hall a (List.mem_cons_self a rest),
        fun x hx => hall x (List.mem_cons_of_mem a hx)⟩

theorem drop_append_len {w cap : List Char} (j : Nat) :
    (w ++ cap).drop (w.length + j) = cap.drop j := by
  induction w with
  | nil => simp
  | cons a rest ih =>
    have e : (a :: rest).length + j = (rest.length + j) + 1 := by
      simp only [List.length_cons]
      omega
    rw [List.cons_append, e, List.drop_succ_cons]
    exact ih

theorem drop_length_sub_one :
    ∀ {l : List Char}, l ≠ [] → ∃ x, l.drop (l.length - 1) = [x] ∧ x ∈ l := by
  intro l
  induction l with
  | nil => intro h; exact absurd rfl h
  | cons a rest ih =>
    intro _
    cases rest with
    | nil => exact ⟨a, rfl, List.mem_singleton_self a⟩
    | cons b rest2 =>
      obtain ⟨x, hx, hmem⟩ := ih (by simp)
      refine ⟨x, ?_, List.mem_cons_of_mem a hmem⟩
      have e : (a :: b :: rest2).length - 1 = ((b :: rest2).length - 1) + 1 := by
        simp only [List.length_cons]
        omega
      rw [e, List.drop_succ_cons]
      exact hx

theorem takeWhile_length_le {p : Char → Bool} {l : List Char} :
    (l.takeWhile p).length ≤ l.length := by
  have e := congrArg List.length (List.takeWhile_append_dropWhile (p := p) (l := l))
  rw [List.length_append] at e
  omega

theorem capture_ne_nil {r : List Char} (hcap : PromptCapture r) : r ≠ [] := by
  obtain ⟨w, cap, heq, _, hcne, _⟩ := hcap
  intro e
  rw [e] at heq
  rcases List.append_eq_nil.mp heq.symm with ⟨_, h2⟩
  exact hcne h2

theorem capture_any_false {r : List Char} (hcap : PromptCapture r) :
    (r.drop (min (r.takeWhile isSpace).length (r.length - 1))).any isLineTerm = false := by
  obtain ⟨w, cap, heq, hw, hcne, hfree⟩ := hcap
  have hkle : (r.takeWhile isSpace).length ≤ r.length := takeWhile_length_le
  by_cases hlt : (r.takeWhile isSpace).length < r.length
  · have hmin : min (r.takeWhile isSpace).length (r.length - 1) =
        (r.takeWhile isSpace).length := by omega
    rw [hmin, ← dropWhile_eq_drop_length]
    rw [heq, dropWhile_all_append hw]
    rw [any_false_iff]
    intro x hx
    exact hfree x (mem_of_mem_dropWhile hx)
  · have hk : (r.takeWhile isSpace).length = r.length := by omega
    have hclen : 0 < cap.length := List.length_pos.mpr hcne
    have hlen : r.length = w.length + cap.length := by
      rw [heq, List.length_append]
    have hmin : min (r.takeWhile isSpace).length (r.length - 1) =
        w.length + (cap.length - 1) := by omega
    rw [hmin, heq, drop_append_len]
    rw [any_false_iff]
    intro x hx
    exact hfree x (mem_of_mem_drop hx)

theorem capture_trim {r : List Char} :
    trimJS (r.drop (min (r.takeWhile isSpace).length (r.length - 1))) = trimJS r := by
  have hkle : (r.takeWhile isSpace).length ≤ r.length := takeWhile_length_le
  by_cases hlt : (r.takeWhile isSpace).length < r.length
  · have hmin : min (r.takeWhile isSpace).length (r.length - 1) =
        (r.takeWhile isSpace).length := by omega
    rw [hmin, ← dropWhile_eq_drop_length, trimJS_dropWhile]
  · have hk : (r.takeWhile isSpace).length = r.length := by omega
    have hall : ∀ x ∈ r, isSpace x = true := takeWhile_all_of_length hk
    rw [trimJS_all_space hall]
    apply trimJS_all_space
    intro x hx
    exact hall x (mem_of_mem_drop hx)

theorem capture_of_checks {r : List Char} (hne : r ≠ [])
    (hany : (r.drop (min (r.takeWhile isSpace).length (r.length - 1))).any isLineTerm
      = false) : PromptCapture r := by
  have hkle : (r.takeWhile isSpace).length ≤ r.length := takeWhile_length_le
  have hrpos : 0 < r.length := List.length_pos.mpr hne
  by_cases hlt : (r.takeWhile isSpace).length < r.length
  · have hmin : min (r.takeWhile isSpace).length (r.length - 1) =
        (r.takeWhile isSpace).length := by omega
    rw [hmin, ← dropWhile_eq_drop_length] at hany
    refine ⟨r.takeWhile isSpace, r.dropWhile isSpace,
      (List.takeWhile_append_dropWhile (p := isSpace) (l := r)).symm,
      fun x hx => mem_takeWhile_sat hx, ?_, ?_⟩
    · intro e
      have e2 := congrArg List.length
        (List.takeWhile_append_dropWhile (p := isSpace) (l := r))
      rw [List.length_append, e] at e2
      simp at e2
      omega
    · intro x hx
      exact (any_false_iff.mp hany) x hx
  · have hk : (r.takeWhile isSpace).length = r.length := by omega
    have hall : ∀ x ∈ r, isSpace x = true := takeWhile_all_of_length hk
    have hmin : min (r.takeWhile isSpace).length (r.length - 1) = r.length - 1 := by
      omega
    rw [hmin] at hany
    obtain ⟨x, hx, hmem⟩ := drop_length_sub_one hne
    refine ⟨r.take (r.length - 1), [x], ?_, ?_, by simp, ?_⟩
    · rw [← hx, List.take_append_drop]
    · intro y hy
      exact hall y (List.take_subset _ _ hy)
    · intro y hy
      rcases List.mem_singleton.mp hy with rfl
      have := any_false_iff.mp hany
      rw [hx] at this
      exact this y (List.mem_singleton_self y)

theorem promptTail_of_parts {w2 pr w3 r : List Char}
    (hw2 : ∀ c ∈ w2, isSpace c = true) (hpr : pr.map lc = "prompt".toList)
    (hw3 : ∀ c ∈ w3, isSpace c = true) (hcap : PromptCapture r) :
    promptTail (w2 ++ (pr ++ (w3 ++ ':' :: r))) = some (trimJS r) := by
  have hm : ∃ p0 pr2, pr = p0 :: pr2 ∧ isSpace p0 = false := by
    have e : ("prompt".toList) = ['p', 'r', 'o', 'm', 'p', 't'] := by decide
    rw [e] at hpr
    cases pr with
    | nil => cases hpr
    | cons p0 pr2 =>
      simp only [List.map_cons, List.cons.injEq] at hpr
      exact ⟨p0, pr2, rfl, not_space_of_lc_p hpr.1⟩
  obtain ⟨p0, pr2, hpeq, hp0⟩ := hm
  have hdw2 : (w2 ++ (pr ++ (w3 ++ ':' :: r))).dropWhile isSpace =
      pr ++ (w3 ++ ':' :: r) := by
    rw [dropWhile_all_append hw2, hpeq]
    simp only [List.cons_append]
    rw [List.dropWhile_cons_of_neg (by simp [hp0])]
  have hlit : litCI ("prompt".toList) (pr ++ (w3 ++ ':' :: r)) =
      some (pr, w3 ++ ':' :: r) := by
    apply lit_of_lcEq
    rw [hpr]
    decide
  have hdw3 : (w3 ++ ':' :: r).dropWhile isSpace = ':' :: r :=
    dropWhile_of_all_append hw3 (by decide)
  have hrne : ¬ (r = []) := capture_ne_nil hcap
  have hany := capture_any_false hcap
  have htrim := capture_trim (r := r)
  unfold promptTail
  simp only [hdw2, hlit, hdw3]
  simp [hrne, hany, htrim]

theorem promptMatch_of_form {line r : List Char}
    (hform : PromptLineForm line r) (hcap : PromptCapture r) :
    promptMatch line = some (trimJS r) := by
  obtain ⟨w1, mk, w2, pr, w3, heq, hw1, hmk, hw2, hpr, hw3, hne⟩ := hform
  simp only [List.append_assoc] at heq
  rcases hmk with hmk | hmk
  · subst hmk
    have hdw : line.dropWhile isSpace =
        '/' :: '/' :: (w2 ++ (pr ++ (w3 ++ ':' :: r))) := by
      rw [heq, dropWhile_all_append hw1]
      simp only [List.cons_append, List.nil_append]
      rw [List.dropWhile_cons_of_neg (by decide)]
    unfold promptMatch
    rw [hdw]
    show promptTail (w2 ++ (pr ++ (w3 ++ ':' :: r))) = some (trimJS r)
    exact promptTail_of_parts hw2 hpr hw3 hcap
  · subst hmk
    have hdw : line.dropWhile isSpace =
        '#' :: (w2 ++ (pr ++ (w3 ++ ':' :: r))) := by
      rw [heq, dropWhile_all_append hw1]
      simp only [List.cons_append, List.nil_append]
      rw [List.dropWhile_cons_of_neg (by decide)]
    unfold promptMatch
    rw [hdw]
    show promptTail (w2 ++ (pr ++ (w3 ++ ':' :: r))) = some (trimJS r)
    exact promptTail_of_parts hw2 hpr hw3 hcap

theorem parts_of_promptTail {r0 p : List Char} (h : promptTail r0 = some p) :
    ∃ w2 pr w3 rest, r0 = w2 ++ (pr ++ (w3 ++ ':' :: rest)) ∧
      (∀ c ∈ w2, isSpace c = true) ∧ pr.map lc = "prompt".toList ∧
      (∀ c ∈ w3, isSpace c = true) ∧ PromptCapture rest ∧ p = trimJS rest := by
  unfold promptTail at h
  split at h
  next => cases h
  next mm r2 hlit =>
    split at h
    next rest hdw2 =>
      split at h
      next => cases h
      next hrne =>
        split at h
        next => cases h
        next hany =>
          cases h
          have hcap : PromptCapture rest :=
            capture_of_checks hrne (eq_false_of_ne_true hany)
          refine ⟨r0.takeWhile isSpace, mm, r2.takeWhile isSpace, rest, ?_,
            fun x hx => mem_takeWhile_sat hx, ?_,
            fun x hx => mem_takeWhile_sat hx, hcap, capture_trim (r := rest)⟩
          · conv_lhs =>
              rw [← List.takeWhile_append_dropWhile (p := isSpace) (l := r0)]
              rw [lit_split hlit]
            have e2 : r2 = r2.takeWhile isSpace ++ (':' :: rest) := by
              conv_lhs =>
                rw [← List.takeWhile_append_dropWhile (p := isSpace) (l := r2)]
                rw [hdw2]
            conv_lhs => rw [e2]
          · rw [lit_lc hlit]
            decide
    next => cases h

theorem form_of_promptMatch {line p : List Char} (h : promptMatch line = some p) :
    ∃ r, PromptLineForm line r ∧ PromptCapture r ∧ p = trimJS r := by
  unfold promptMatch at h
  split at h
  next r0 hdw =>
    obtain ⟨w2, pr, w3, rest, heq, hw2, hpr, hw3, hcap, hp⟩ := parts_of_promptTail h
    refine ⟨rest, ⟨line.takeWhile isSpace, ['/', '/'], w2, pr, w3, ?_,
      fun x hx => mem_takeWhile_sat hx, Or.inl rfl, hw2, hpr, hw3,
      capture_ne_nil hcap⟩, hcap, hp⟩
    conv_lhs =>
      rw [← List.takeWhile_append_dropWhile (p := isSpace) (l := line)]
      rw [hdw, heq]
    simp
  next r0 hdw =>
    obtain ⟨w2, pr, w3, rest, heq, hw2, hpr, hw3, hcap, hp⟩ := parts_of_promptTail h
    refine ⟨rest, ⟨line.takeWhile isSpace, ['#'], w2, pr, w3, ?_,
      fun x hx => mem_takeWhile_sat hx, Or.inr rfl, hw2, hpr, hw3,
      capture_ne_nil hcap⟩, hcap, hp⟩
    conv_lhs =>
      rw [← List.takeWhile_append_dropWhile (p := isSpace) (l := line)]
      rw [hdw, heq]
    simp
  next => cases h

/-! ### The captured function name is a substring of its line -/

theorem name_substr_of_drop {pat l mlit r1 : List Char}
    (hlit : litCI pat l = some (mlit, r1)) :
    ∃ a b, l = a ++ ((r1.dropWhile isSpace).takeWhile isWordChar) ++ b := by
  refine ⟨mlit ++ r1.takeWhile isSpace,
    ((r1.dropWhile isSpace).dropWhile isWordChar), ?_⟩
  rw [lit_split hlit]
  conv_lhs =>
    rw [← List.takeWhile_append_dropWhile (p := isSpace) (l := r1)]
    rw [← List.takeWhile_append_dropWhile
      (p := isWordChar) (l := r1.dropWhile isSpace)]
  simp

theorem matchFuncAt_substr {l name : List Char} (h : matchFuncAt l = some name) :
    ∃ a b, l = a ++ name ++ b := by
  unfold matchFuncAt at h
  split at h
  next n h1 =>
    cases h
    unfold matchFuncDecl at h1
    split at h1
    next => cases h1
    next mlit r1 hlit =>
      split at h1
      next => cases h1
      next =>
        split at h1
        next => cases h1
        next =>
          split at h1
          next => cases h1; exact name_substr_of_drop hlit
          next => cases h1
  next h0 =>
    split at h
    next n h1 =>
      cases h
      unfold matchConstArrow at h1
      split at h1
      next => cases h1
      next mlit r1 hlit =>
        split at h1
        next => cases h1
        next =>
          split at h1
          next => cases h1
          next =>
            split at h1
            next r4 =>
              split at h1
              next r5 =>
                split at h1
                next => cases h1; exact name_substr_of_drop hlit
                next => cases h1
              next => cases h1
            next => cases h1
    next h1 =>
      unfold matchDefDecl at h
      split at h
      next => cases h
      next mlit r1 hlit =>
        split at h
        next => cases h
        next =>
          split at h
          next => cases h
          next =>
            split at h
            next => cases h; exact name_substr_of_drop hlit
            next => cases h

theorem findFuncName_substr :
    ∀ {l name : List Char}, findFuncName l = some name → ∃ a b, l = a ++ name ++ b := by
  intro l
  induction l with
  | nil =>
    intro name h
    simp only [findFuncName] at h
    exact matchFuncAt_substr h
  | cons c rest ih =>
    intro name h
    simp only [findFuncName] at h
    split at h
    next n hAt =>
      cases h
      exact matchFuncAt_substr hAt
    next =>
      obtain ⟨a, b, hab⟩ := ih h
      exact ⟨c :: a, b, by simp [hab]⟩

theorem authKeyword_of_name {line name : List Char}
    (hfind : findFuncName line = some name) (hauth : containsCI "auth" name = true) :
    authKeywordLine line = true := by
  have hline : containsCI "auth" line = true :=
    containsCI_mono (findFuncName_substr hfind) hauth
  unfold authKeywordLine
  rw [hline]
  simp

/-! ### Per-line decomposition of the scan output -/

theorem scan_at_line {text line : List Char} {i : Nat}
    (hline : (splitLines text).get? i = some line) :
    diagsAtLine (findIssuesWithRegex text) i =
      (secretDiagOfLine i line).toList ++
      (funcDiagOfLine (splitLines text) i line).toList := by
  unfold findIssuesWithRegex diagsAtLine
  rw [List.filter_append]
  have h1 := filterMap_enum_at (n := 0)
    (f := fun j l => secretDiagOfLine j l) (k := fun d => d.range.startLine)
    (fun j a b hb => secretDiag_key hb) hline
  have h2 := filterMap_enum_at (n := 0)
    (f := fun j l => funcDiagOfLine (splitLines text) j l)
    (k := fun d => d.range.startLine)
    (fun j a b hb => funcDiag_key hb) hline
  simp only [Nat.zero_add] at h1 h2
  rw [h1, h2]

/-! ### Lemmas on the enhancement pipeline state -/

theorem detectLoop_diags :
    ∀ (ps : List (Nat × List Char)) (st : EnhState),
      (detectLoop st ps).2.1 = ps.filterMap fun p =>
        (promptMatch p.2).map fun _ => loadingDiag p.1 p.2 := by
  intro ps
  induction ps with
  | nil => intro st; rfl
  | cons q rest ih =>
    intro st
    cases q with
    | mk i line =>
      simp only [detectLoop, List.filterMap_cons]
      cases hp : promptMatch line with
      | none => simp [hp, ih]
      | some s => simp [hp, ih]

theorem loading_key :
    ∀ (j : Nat) (line : List Char) (d : Diagnostic),
      ((promptMatch line).map fun _ => loadingDiag j line) = some d →
      d.range.startLine = j := by
  intro j line d h
  cases hp : promptMatch line with
  | none => rw [hp] at h; cases h
  | some s => rw [hp] at h; cases h; rfl

theorem filter_startLine_parts {ds : List Diagnostic} {i : Nat} {d0 : Diagnostic}
    (hd0 : d0.range.startLine = i) :
    diagsAtLine ((ds.filter fun d => d.range.startLine != i) ++ [d0]) i = [d0] := by
  unfold diagsAtLine
  rw [List.filter_append]
  have h1 : (ds.filter fun d => d.range.startLine != i).filter
      (fun d => d.range.startLine == i) = [] := by
    rw [List.filter_eq_nil_iff]
    intro a ha
    have hm := List.mem_filter.mp ha
    have hne : a.range.startLine ≠ i := by
      have := hm.2
      simpa using this
    simp [hne]
  rw [h1]
  simp [hd0]

theorem noDup_resolve {ds : List Diagnostic} {i : Nat} {d0 : Diagnostic}
    (hnd : NoDupLines ds) (hd0 : d0.range.startLine = i) :
    NoDupLines ((ds.filter fun d => d.range.startLine != i) ++ [d0]) := by
  unfold NoDupLines at hnd ⊢
  rw [List.pairwise_append]
  refine ⟨List.Pairwise.sublist (List.filter_sublist _) hnd,
    List.pairwise_singleton _ _, ?_⟩
  intro a ha b hb
  have hm := List.mem_filter.mp ha
  have hne : a.range.startLine ≠ i := by
    have := hm.2
    simpa using this
  rcases List.mem_singleton.mp hb with rfl
  rw [hd0]
  exact hne

theorem noDup_detect_store (text : List Char) (st : EnhState) :
    NoDupLines ((detectLoop st (enumFrom 0 (splitLines text))).2.1) := by
  rw [detectLoop_diags]
  unfold NoDupLines
  have hpw := filterMap_enum_pairwise
    (f := fun j line => (promptMatch line).map fun _ => loadingDiag j line)
    (k := fun d => d.range.startLine) loading_key (splitLines text) 0
  exact hpw.imp fun hlt => Nat.ne_of_lt hlt

theorem resolveDiag_key {i len : Nat} {res : Except String (List Char)} :
    (resolveDiag i len res).range.startLine = i := by
  cases res <;> rfl

theorem findFrom_isSome {M : List Char → Option (List Char × List Char)} :
    ∀ {l : List Char} {i k : Nat} {m r : List Char},
      M (l.drop k) = some (m, r) → ∃ p m0, findFrom M l i = some (p, m0) := by
  intro l
  induction l with
  | nil =>
    intro i k m r h
    rw [List.drop_nil] at h
    exact ⟨i, m, by simp [findFrom, h]⟩
  | cons c rest ih =>
    intro i k m r h
    cases hM : M (c :: rest) with
    | some res => exact ⟨i, res.1, by simp [findFrom, hM]⟩
    | none =>
      cases k with
      | zero =>
        rw [List.drop_zero] at h
        rw [h] at hM
        cases hM
      | succ k2 =>
        rw [List.drop_succ_cons] at h
        obtain ⟨p, m0, hp⟩ := ih (i := i + 1) h
        exact ⟨p, m0, by simp [findFrom, hM, hp]⟩

theorem matchSecret_token {l m r : List Char} (h : matchSecretAt l = some (m, r)) :
    ∃ mt rt, matchToken l = some (mt, rt) := by
  unfold matchSecretAt at h
  split at h
  next => cases h
  next m1 r1 h1 => exact ⟨m1, r1, h1⟩

/-! ### Bridging the claim-side secret form to the source matcher (C1) -/

theorem toNat_ofNat_valid {n : Nat} (h : n.isValidChar) : (Char.ofNat n).toNat = n := by
  rw [Char.ofNat, dif_pos h]
  rfl

theorem lc_eq_self_of_notletter {c d : Char} (h : lc c = d)
    (hd : d.toNat < 97 ∨ 122 < d.toNat) : c = d := by
  have h2 : (if c.toNat ≥ 65 ∧ c.toNat ≤ 90 then Char.ofNat (c.toNat + 32) else c) = d := h
  split at h2
  next hc =>
    exfalso
    have hv : (c.toNat + 32).isValidChar := Or.inl (by omega)
    have h3 := congrArg Char.toNat h2
    rw [toNat_ofNat_valid hv] at h3
    omega
  next => exact h2

theorem map_lc_append :
    ∀ {tok A B : List Char}, tok.map lc = A ++ B →
      ∃ ta tb, tok = ta ++ tb ∧ ta.map lc = A ∧ tb.map lc = B := by
  intro tok
  induction tok with
  | nil =>
    intro A B h
    have h0 : A ++ B = ([] : List Char) := h.symm
    obtain ⟨rfl, rfl⟩ := List.append_eq_nil.mp h0
    exact ⟨[], [], rfl, rfl, rfl⟩
  | cons c cs ih =>
    intro A B h
    cases A with
    | nil =>
      exact ⟨[], c :: cs, rfl, rfl, by simpa using h⟩
    | cons a0 as =>
      simp only [List.map_cons, List.cons_append, List.cons.injEq] at h
      obtain ⟨ta, tb, ht, hA, hB⟩ := ih h.2
      exact ⟨c :: ta, tb, by simp [ht], by simp [List.map_cons, h.1, hA], hB⟩

theorem matchApiKey_of_sep {tok : List Char} {s : Char} (hs : s = '_' ∨ s = '-')
    (h : tok.map lc = ['a', 'p', 'i', s, 'k', 'e', 'y']) (rest : List Char) :
    matchApiKey (tok ++ rest) = some (tok, rest) := by
  obtain ⟨ta, tb, hteq, hta, htb⟩ :=
    map_lc_append (show tok.map lc = ['a', 'p', 'i'] ++ [s, 'k', 'e', 'y'] from h)
  cases tb with
  | nil => cases htb
  | cons c0 tb2 =>
    simp only [List.map_cons, List.cons.injEq] at htb
    have hc0 : c0 = s := by
      rcases hs with rfl | rfl
      · exact lc_eq_self_of_notletter htb.1 (Or.inl (by decide))
      · exact lc_eq_self_of_notletter htb.1 (Or.inl (by decide))
    subst hc0
    subst hteq
    have hta2 : ta.map lc = (['a', 'p', 'i'] : List Char).map lc := by
      rw [hta]; decide
    have htb2 : tb2.map lc = (['k', 'e', 'y'] : List Char).map lc := by
      rw [htb.2]; decide
    have hkey : litCI ['k', 'e', 'y'] (tb2 ++ rest) = some (tb2, rest) :=
      lit_of_lcEq htb2 rest
    have hapi : litCI ['a', 'p', 'i'] (ta ++ (c0 :: (tb2 ++ rest))) =
        some (ta, c0 :: (tb2 ++ rest)) := lit_of_lcEq hta2 (c0 :: (tb2 ++ rest))
    have hcond : (c0 = '_' || c0 = '-') = true := by
      rcases hs with rfl | rfl <;> decide
    have e1 : (ta ++ c0 :: tb2) ++ rest = ta ++ (c0 :: (tb2 ++ rest)) := by simp
    rw [e1]
    unfold matchApiKey
    simp [hapi, hcond, hkey]

theorem token_of_lc {tok : List Char}
    (h : tok.map lc = "api_key".toList ∨ tok.map lc = "apikey".toList ∨
      tok.map lc = "api-key".toList ∨ tok.map lc = "secret".toList ∨
      tok.map lc = "token".toList) (rest : List Char) :
    matchToken (tok ++ rest) = some (tok, rest) := by
  rcases h with h | h | h | h | h
  · have h2 : tok.map lc = ['a', 'p', 'i', '_', 'k', 'e', 'y'] := by rw [h]; decide
    unfold matchToken
    rw [matchApiKey_of_sep (Or.inl rfl) h2 rest]
  · have h2 : tok.map lc = ("apikey".toList).map lc := by rw [h]; decide
    have h3 := apikey_imp_apiKey (lit_of_lcEq h2 rest)
    unfold matchToken
    rw [h3]
  · have h2 : tok.map lc = ['a', 'p', 'i', '-', 'k', 'e', 'y'] := by rw [h]; decide
    unfold matchToken
    rw [matchApiKey_of_sep (Or.inr rfl) h2 rest]
  · have hlc : tok.map lc = ("secret".toList).map lc := by rw [h]; decide
    have hm : tok.map lc = ['s', 'e', 'c', 'r', 'e', 't'] := by rw [h]; decide
    cases tok with
    | nil => cases hm
    | cons s0 ms =>
      simp only [List.map_cons, List.cons.injEq] at hm
      have hs0 : lc s0 = 's' := hm.1
      have hapi : litCI ['a', 'p', 'i'] (s0 :: (ms ++ rest)) = none :=
        lit_head_ne (by rw [hs0]; decide)
      have hapikey : litCI ['a', 'p', 'i', 'k', 'e', 'y'] (s0 :: (ms ++ rest)) = none :=
        lit_head_ne (by rw [hs0]; decide)
      have hsec : litCI ['s', 'e', 'c', 'r', 'e', 't'] (s0 :: (ms ++ rest)) =
          some (s0 :: ms, rest) := lit_of_lcEq hlc rest
      unfold matchToken matchApiKey
      simp only [List.cons_append]
      simp [hapi, hapikey, hsec]
  · have hlc : tok.map lc = ("token".toList).map lc := by rw [h]; decide
    have hm : tok.map lc = ['t', 'o', 'k', 'e', 'n'] := by rw [h]; decide
    cases tok with
    | nil => cases hm
    | cons t0 ms =>
      simp only [List.map_cons, List.cons.injEq] at hm
      have ht0 : lc t0 = 't' := hm.1
      have hapi : litCI ['a', 'p', 'i'] (t0 :: (ms ++ rest)) = none :=
        lit_head_ne (by rw [ht0]; decide)
      have hapikey : litCI ['a', 'p', 'i', 'k', 'e', 'y'] (t0 :: (ms ++ rest)) = none :=
        lit_head_ne (by rw [ht0]; decide)
      have hsec : litCI ['s', 'e', 'c', 'r', 'e', 't'] (t0 :: (ms ++ rest)) = none :=
        lit_head_ne (by rw [ht0]; decide)
      have htok : litCI ['t', 'o', 'k', 'e', 'n'] (t0 :: (ms ++ rest)) =
          some (t0 :: ms, rest) := lit_of_lcEq hlc rest
      unfold matchToken matchApiKey
      simp only [List.cons_append]
      simp [hapi, hapikey, hsec, htok]

theorem secret_match_of_form {line : List Char} (h : SecretLineForm line) :
    ∃ p m0, findFrom matchSecretAt line 0 = some (p, m0) := by
  obtain ⟨tok, content,
    ⟨a, w1, sep, w2, q1, q2, b, heq, htok, hsep, hw1, hw2, hq1, hq2, hqc⟩, hne⟩ := h
  have hsepns : isSpace sep = false := by rcases hsep with rfl | rfl <;> decide
  have hq1d : (q1 = '\'' ∨ q1 = '"') ∨ q1 = backtick := by
    simpa [isQuote] using hq1
  have hq1ns : isSpace q1 = false := by
    rcases hq1d with (rfl | rfl) | rfl <;> decide
  have hbool1 : (sep = ':' || sep = '=') = true := by
    rcases hsep with rfl | rfl <;> decide
  have htoken := token_of_lc htok (w1 ++ (sep :: (w2 ++ (q1 :: (content ++ (q2 :: b))))))
  have hws1 : wsThen (fun c => c = ':' || c = '=')
      (w1 ++ (sep :: (w2 ++ (q1 :: (content ++ (q2 :: b)))))) =
      some (w1 ++ [sep], w2 ++ (q1 :: (content ++ (q2 :: b)))) := by
    unfold wsThen
    rw [dropWhile_of_all_append hw1 hsepns, takeWhile_of_all_append hw1 hsepns]
    simp [hbool1]
  have hws2 : wsThen isQuote (w2 ++ (q1 :: (content ++ (q2 :: b)))) =
      some (w2 ++ [q1], content ++ (q2 :: b)) := by
    unfold wsThen
    rw [dropWhile_of_all_append hw2 hq1ns, takeWhile_of_all_append hw2 hq1ns]
    simp [hq1]
  have hcontq : ∀ x ∈ content, (fun c => !isQuote c) x = true := by
    intro x hx
    simp [hqc x hx]
  have hq2f : (fun c => !isQuote c) q2 = false := by simp [hq2]
  have hdropc : (content ++ (q2 :: b)).dropWhile (fun c => !isQuote c) = q2 :: b :=
    dropWhile_of_all_append hcontq hq2f
  have htakec : (content ++ (q2 :: b)).takeWhile (fun c => !isQuote c) = content :=
    takeWhile_of_all_append hcontq hq2f
  have hmatch : matchSecretAt
      (tok ++ (w1 ++ (sep :: (w2 ++ (q1 :: (content ++ (q2 :: b))))))) =
      some (tok ++ (w1 ++ [sep]) ++ (w2 ++ [q1]) ++ content ++ [q2], b) := by
    unfold matchSecretAt
    simp only [htoken, hws1, hws2, hdropc, htakec]
    rw [if_neg hne]
  have hdropa : line.drop a.length =
      tok ++ (w1 ++ (sep :: (w2 ++ (q1 :: (content ++ (q2 :: b)))))) := by
    rw [heq]
    simp
  have hM : matchSecretAt (line.drop a.length) =
      some (tok ++ (w1 ++ [sep]) ++ (w2 ++ [q1]) ++ content ++ [q2], b) := by
    rw [hdropa]
    exact hmatch
  exact findFrom_isSome hM

/-! ### Claim theorems -/

/-- C1 counterexample: the line secret='' contains a case-insensitive
secret-kind token followed by an equals sign followed by a quoted literal,
as the claim is worded, yet the literal is empty, the one-or-more non-quote
content class of the source regex cannot match it, and the scan emits no
diagnostic at all for the line. -/
theorem C1_counterexample :
    SecretLineFormLiteral ("secret=''".toList) ∧
    findIssuesWithRegex ("secret=''".toList) = [] := by
  constructor
  · exact ⟨"secret".toList, [], [], [], '=', [], '\'', '\'', [], by decide, by decide,
      by decide, by decide, by decide, by decide, by decide, by decide⟩
  · decide

/-- C1 (amended): for every document text and every physical line that
contains a case-insensitive secret-kind token among api_key, apikey,
api-key, secret, token followed (possibly after whitespace) by a colon or an
equals sign followed (possibly after whitespace) by a quoted literal with at
least one character between the quotes (single, double or backtick quotes;
the closing quote need not match the opening one), the secret regex matches
and scan returns exactly one Warning diagnostic with code hardcoded_secret
and the message about hardcoded secrets, whose range starts at the first
character of the matched substring (the leftmost match position) and extends
to the end of that line; a line on which the regex does not match — in
particular one whose quoted literals are all empty — yields no such
diagnostic, so at most one hardcoded_secret diagnostic is emitted per line
even if the pattern occurs several times on it. -/
theorem C1_secret_rule_amended (text line : List Char) (i : Nat)
    (hline : (splitLines text).get? i = some line) :
    (SecretLineForm line →
      ∃ p m0, findFrom matchSecretAt line 0 = some (p, m0) ∧
        (diagsAtLine (findIssuesWithRegex text) i).filter
            (fun d => d.code == "SafePrompt.hardcoded_secret") =
          [⟨⟨i, p, i, line.length⟩,
            "Hardcoded secret detected. Consider using environment variables.",
            .Warning, "SafePrompt.hardcoded_secret"⟩]) ∧
    (∀ p m0, findFrom matchSecretAt line 0 = some (p, m0) →
      (diagsAtLine (findIssuesWithRegex text) i).filter
          (fun d => d.code == "SafePrompt.hardcoded_secret") =
        [⟨⟨i, p, i, line.length⟩,
          "Hardcoded secret detected. Consider using environment variables.",
          .Warning, "SafePrompt.hardcoded_secret"⟩]) ∧
    (findFrom matchSecretAt line 0 = none →
      (diagsAtLine (findIssuesWithRegex text) i).filter
          (fun d => d.code == "SafePrompt.hardcoded_secret") = []) := by
  have hscan := scan_at_line hline
  have hfunc : (funcDiagOfLine (splitLines text) i line).toList.filter
      (fun d => d.code == "SafePrompt.hardcoded_secret") = [] := by
    cases hg : funcDiagOfLine (splitLines text) i line with
    | none => rfl
    | some d => simp [funcDiag_code hg]
  have hmain : ∀ p m0, findFrom matchSecretAt line 0 = some (p, m0) →
      (diagsAtLine (findIssuesWithRegex text) i).filter
          (fun d => d.code == "SafePrompt.hardcoded_secret") =
        [⟨⟨i, p, i, line.length⟩,
          "Hardcoded secret detected. Consider using environment variables.",
          .Warning, "SafePrompt.hardcoded_secret"⟩] := by
    intro p m0 hf
    rw [hscan, List.filter_append, hfunc]
    have hidx : indexOfFrom m0 line 0 = some p :=
      findFrom_indexOf (fun h => secret_split h) (fun h => secret_stable h) hf
    have hsec : secretDiagOfLine i line =
        some ⟨⟨i, p, i, line.length⟩,
          "Hardcoded secret detected. Consider using environment variables.",
          .Warning, "SafePrompt.hardcoded_secret"⟩ := by
      unfold secretDiagOfLine
      rw [hf]
      simp [hidx]
    rw [hsec]
    simp
  refine ⟨?_, hmain, ?_⟩
  · intro hform
    obtain ⟨p, m0, hf⟩ := secret_match_of_form hform
    exact ⟨p, m0, hf, hmain p m0 hf⟩
  · intro hf
    rw [hscan, List.filter_append, hfunc]
    have hsec : secretDiagOfLine i line = none := by
      unfold secretDiagOfLine
      rw [hf]
    rw [hsec]
    rfl

/-- Witness for the amended C1: on a concrete two-line document the second
line api_key = 'abc' satisfies the nonempty-literal secret form, and the
scan yields exactly the expected Warning diagnostic for that line. -/
theorem C1_witness :
    SecretLineForm ("api_key = 'abc'".toList) ∧
    (diagsAtLine (findIssuesWithRegex ("k\napi_key = 'abc'".toList)) 1).filter
        (fun d => d.code == "SafePrompt.hardcoded_secret") =
      [⟨⟨1, 0, 1, 15⟩,
        "Hardcoded secret detected. Consider using environment variables.",
        .Warning, "SafePrompt.hardcoded_secret"⟩] := by
  refine ⟨⟨"api_key".toList, "abc".toList,
    ⟨[], [' '], '=', [' '], '\'', '\'', [], by decide, by decide, by decide,
      by decide, by decide, by decide, by decide, by decide⟩, by decide⟩, ?_⟩
  exact (C1_secret_rule_amended ("k\napi_key = 'abc'".toList)
    ("api_key = 'abc'".toList) 1 (by decide)).2.1 0 ("api_key = 'abc'".toList)
    (by decide)

/-- C2 counterexample: the fourth authorization keyword of the source is the
regex req.user with an unescaped dot, so it matches req, any character,
user.  On this document the definition line matches the function pattern
with the sensitive name login, no line of the window contains any of the
five keywords read literally (in particular not the literal text req.user),
yet scan emits no missing_auth diagnostic, because the line reqXuser
satisfies the dot-wildcard keyword test. -/
theorem C2_counterexample :
    ((splitLines ("function login(req, res) \x7b\n  reqXuser\n\x7d".toList)).all
      fun l => !specAuthKeywordLiteral l) = true ∧
    findFuncName ("function login(req, res) \x7b".toList) = some ("login".toList) ∧
    sensitiveName ("login".toList) = true ∧
    ((findIssuesWithRegex ("function login(req, res) \x7b\n  reqXuser\n\x7d".toList)).all
      fun d => d.code != "SafePrompt.missing_auth") = true := by
  decide

/-- C2 (amended): For every line matching a function-definition pattern whose
extracted name case-insensitively contains login, auth, getuser or admin: if
none of the up-to-eight lines of the window starting at the definition line
satisfies the authorization-keyword test (case-insensitive role, authorize,
auth, hasRole, or req-any-character-user, the dot of req.user being an
unescaped regex wildcard), then scan returns exactly one Warning diagnostic
for the full definition line with code missing_auth and the message naming
the function; if some window line satisfies the test, scan returns no
missing_auth diagnostic for that line. -/
theorem C2_missing_auth_amended (text line name : List Char) (i : Nat)
    (hline : (splitLines text).get? i = some line)
    (hname : findFuncName line = some name)
    (hsens : sensitiveName name = true) :
    (hasAuthWindow (splitLines text) i = false →
      (diagsAtLine (findIssuesWithRegex text) i).filter
          (fun d => d.code == "SafePrompt.missing_auth") =
        [⟨⟨i, 0, i, line.length⟩,
          "Possible missing authorization check in function \"" ++
            String.mk name ++ "\".",
          .Warning, "SafePrompt.missing_auth"⟩]) ∧
    (hasAuthWindow (splitLines text) i = true →
      (diagsAtLine (findIssuesWithRegex text) i).filter
          (fun d => d.code == "SafePrompt.missing_auth") = []) := by
  have hscan := scan_at_line hline
  have hsecpart : (secretDiagOfLine i line).toList.filter
      (fun d => d.code == "SafePrompt.missing_auth") = [] := by
    cases hg : secretDiagOfLine i line with
    | none => rfl
    | some d => simp [secretDiag_code hg]
  constructor
  · intro hwin
    rw [hscan, List.filter_append, hsecpart]
    have hf : funcDiagOfLine (splitLines text) i line =
        some ⟨⟨i, 0, i, line.length⟩,
          "Possible missing authorization check in function \"" ++
            String.mk name ++ "\".",
          .Warning, "SafePrompt.missing_auth"⟩ := by
      unfold funcDiagOfLine
      rw [hname]
      simp [hsens, hwin]
    rw [hf]
    simp
  · intro hwin
    rw [hscan, List.filter_append, hsecpart]
    have hf : funcDiagOfLine (splitLines text) i line = none := by
      unfold funcDiagOfLine
      rw [hname]
      simp [hsens, hwin]
    rw [hf]
    rfl

/-- Witness for C2 at a concrete document: a login function with no
authorization keyword in its window. -/
theorem C2_witness :
    (diagsAtLine (findIssuesWithRegex ("function login(a) \x7b\n  x\n\x7d".toList)) 0).filter
        (fun d => d.code == "SafePrompt.missing_auth") =
      [⟨⟨0, 0, 0, 19⟩,
        "Possible missing authorization check in function \"login\".",
        .Warning, "SafePrompt.missing_auth"⟩] := by
  have h := (C2_missing_auth_amended ("function login(a) \x7b\n  x\n\x7d".toList)
    ("function login(a) \x7b".toList) ("login".toList) 0
    (by decide) (by decide) (by decide)).1 (by decide)
  exact h

/-- C9: scan never returns a missing_auth diagnostic for a function
definition whose extracted name case-insensitively contains auth: the
keyword window starts at the definition line itself, the keyword test
includes auth, and the extracted name is a substring of the definition line,
so the definition line always satisfies the keyword test. -/
theorem C9_auth_exempt (text line name : List Char) (i : Nat)
    (hline : (splitLines text).get? i = some line)
    (hname : findFuncName line = some name)
    (hauth : containsCI "auth" name = true) :
    (diagsAtLine (findIssuesWithRegex text) i).filter
        (fun d => d.code == "SafePrompt.missing_auth") = [] := by
  have hscan := scan_at_line hline
  have hsecpart : (secretDiagOfLine i line).toList.filter
      (fun d => d.code == "SafePrompt.missing_auth") = [] := by
    cases hg : secretDiagOfLine i line with
    | none => rfl
    | some d => simp [secretDiag_code hg]
  have hwin : hasAuthWindow (splitLines text) i = true := by
    unfold hasAuthWindow
    obtain ⟨t, ht⟩ := get?_drop_cons hline
    rw [ht]
    simp [authKeyword_of_name hname hauth]
  have hf : funcDiagOfLine (splitLines text) i line = none := by
    unfold funcDiagOfLine
    rw [hname]
    by_cases hs : sensitiveName name = true
    · simp [hs, hwin]
    · simp [hs]
  rw [hscan, List.filter_append, hsecpart, hf]
  rfl

/-- Witness for C9 at a concrete document defining a function named
authCheck with an otherwise keyword-free window. -/
theorem C9_witness :
    (diagsAtLine (findIssuesWithRegex ("function authCheck(a) \x7b\n  x\n\x7d".toList)) 0).filter
        (fun d => d.code == "SafePrompt.missing_auth") = [] :=
  C9_auth_exempt ("function authCheck(a) \x7b\n  x\n\x7d".toList)
    ("function authCheck(a) \x7b".toList) ("authCheck".toList) 0
    (by decide) (by decide) (by decide)

/-- C3 counterexample: a physical line can contain a bare carriage return
(one not followed by a newline survives the line split).  The line is of
the claimed form, with trailing text after the colon, but the capture of
the prompt regex is a dot class that cannot match a line terminator, so
extraction yields nothing instead of the trimmed trailing text. -/
theorem C3_counterexample :
    PromptLineForm ("// PROMPT: a\rb".toList) (" a\rb".toList) ∧
    extractPrompts ("// PROMPT: a\rb".toList) = [] := by
  constructor
  · exact ⟨[], ['/', '/'], [' '], "PROMPT".toList, [], by decide, by decide,
      Or.inl rfl, by decide, by decide, by decide, by decide⟩
  · decide

/-- C3 (amended): For every document of a supported language kind, prompt
extraction yields exactly one (lineIndex, promptText) pair per line of the
form optional whitespace, comment marker, optional whitespace, PROMPT
case-insensitively, optional whitespace, a colon, then trailing text that
decomposes into leading whitespace and a nonempty capture free of line
terminators; the yielded promptText equals the trailing text trimmed of
surrounding whitespace, lineIndex is the zero-based line index, every other
line (including one of the claimed form whose capture region contains a
bare carriage return or Unicode line separator) yields nothing, and the
pairs appear in line order. -/
theorem C3_prompt_extraction_amended (text line : List Char) (i : Nat)
    (hline : (splitLines text).get? i = some line) :
    (∀ r, PromptLineForm line r → PromptCapture r →
      (extractPrompts text).filter (fun q => q.1 == i) = [(i, trimJS r)]) ∧
    ((¬ ∃ r, PromptLineForm line r ∧ PromptCapture r) →
      (extractPrompts text).filter (fun q => q.1 == i) = []) ∧
    List.Pairwise (fun q1 q2 => q1.1 < q2.1) (extractPrompts text) := by
  have hkey : ∀ (j : Nat) (l : List Char) (b : Nat × List Char),
      ((promptMatch l).map fun s => (j, s)) = some b → b.1 = j := by
    intro j l b h
    cases hp : promptMatch l with
    | none => rw [hp] at h; cases h
    | some s => rw [hp] at h; cases h; rfl
  have hat := filterMap_enum_at (n := 0)
    (f := fun j l => (promptMatch l).map fun s => (j, s))
    (k := fun q => q.1) hkey hline
  simp only [Nat.zero_add] at hat
  refine ⟨?_, ?_, ?_⟩
  · intro r hform hcap
    have hpm := promptMatch_of_form hform hcap
    unfold extractPrompts
    rw [hat, hpm]
    rfl
  · intro hno
    unfold extractPrompts
    rw [hat]
    cases hp : promptMatch line with
    | none => rfl
    | some p =>
      obtain ⟨r, hform, hcap, _⟩ := form_of_promptMatch hp
      exact absurd ⟨r, hform, hcap⟩ hno
  · have hpw := filterMap_enum_pairwise
      (f := fun j l => (promptMatch l).map fun s => (j, s))
      (k := fun q => q.1) hkey (splitLines text) 0
    unfold extractPrompts
    exact hpw

/-- Witness for C3 at a concrete prompt line with surrounding whitespace. -/
theorem C3_witness :
    (extractPrompts ("// PROMPT:  hello ".toList)).filter (fun q => q.1 == 0) =
      [(0, "hello".toList)] := by
  have h := (C3_prompt_extraction_amended ("// PROMPT:  hello ".toList)
    ("// PROMPT:  hello ".toList) 0 (by decide)).1 ("  hello ".toList)
    ⟨[], ['/', '/'], [' '], "PROMPT".toList, [], by decide, by decide, Or.inl rfl,
      by decide, by decide, by decide, by decide⟩
    ⟨"  ".toList, "hello ".toList, by decide, by decide, by decide, by decide⟩
  exact h

/-- C4 counterexample: the Loading diagnostic stored for a prompt line
carries the message with the bracketed NVIDIA prefix, not the bare message
text the claim quotes. -/
theorem C4_counterexample :
    (detectAndEnhancePrompts ⟨[], fun _ => false⟩
        ⟨"// PROMPT: x".toList, "javascript"⟩).1.store =
      [⟨⟨0, 0, 0, 12⟩, "[NVIDIA] Loading enhanced prompt...", .Information,
        "SafePrompt.enhanced_prompt_loading"⟩] ∧
    "[NVIDIA] Loading enhanced prompt..." ≠ "Loading enhanced prompt..." := by
  constructor
  · decide
  · decide

/-- C4 (amended): a prompt line first receives a Loading diagnostic with
message "[NVIDIA] Loading enhanced prompt...", Info severity and code
enhanced_prompt_loading; when the in-flight request resolves, the stored
diagnostic for the line is replaced by exactly one diagnostic: on success a
Warning with the NVIDIA-prefixed enhanced text and code enhanced_prompt, on
failure a Warning with the NVIDIA-prefixed failure message and code
enhanced_prompt_failed. -/
theorem C4_lifecycle_amended (st : EnhState) (doc : Document) (line : List Char)
    (i : Nat) (hdoc : isTargetDoc doc.languageId = true)
    (hline : (splitLines doc.text).get? i = some line)
    (hp : ∃ s, promptMatch line = some s) :
    diagsAtLine ((detectAndEnhancePrompts st doc).1.store) i =
      [⟨⟨i, 0, i, max 1 line.length⟩, "[NVIDIA] Loading enhanced prompt...",
        .Information, "SafePrompt.enhanced_prompt_loading"⟩] ∧
    (∀ (st2 : EnhState) (len : Nat) (t text2 : List Char),
      diagsAtLine ((resolveEnhancement st2 i len (.ok t) text2).1.store) i =
        [⟨⟨i, 0, i, max 1 len⟩, "[NVIDIA] " ++ String.mk t, .Warning,
          "SafePrompt.enhanced_prompt"⟩]) ∧
    (∀ (st2 : EnhState) (len : Nat) (msg : String) (text2 : List Char),
      diagsAtLine ((resolveEnhancement st2 i len (.error msg) text2).1.store) i =
        [⟨⟨i, 0, i, max 1 len⟩, "[NVIDIA] Failed to generate enhancement: " ++ msg,
          .Warning, "SafePrompt.enhanced_prompt_failed"⟩]) := by
  refine ⟨?_, ?_, ?_⟩
  · obtain ⟨s, hs⟩ := hp
    unfold detectAndEnhancePrompts
    rw [hdoc]
    simp only [if_true]
    show diagsAtLine ((detectLoop st (enumFrom 0 (splitLines doc.text))).2.1) i = _
    rw [detectLoop_diags]
    have hat := filterMap_enum_at (n := 0)
      (f := fun j l => (promptMatch l).map fun _ => loadingDiag j l)
      (k := fun d => d.range.startLine) loading_key hline
    simp only [Nat.zero_add] at hat
    unfold diagsAtLine
    rw [hat, hs]
    rfl
  · intro st2 len t text2
    exact filter_startLine_parts rfl
  · intro st2 len msg text2
    exact filter_startLine_parts rfl

/-- Witness for C4 at a concrete prompt line, one successful and one failed
resolution. -/
theorem C4_witness :
    diagsAtLine ((detectAndEnhancePrompts ⟨[], fun _ => false⟩
        ⟨"// PROMPT: x".toList, "javascript"⟩).1.store) 0 =
      [⟨⟨0, 0, 0, 12⟩, "[NVIDIA] Loading enhanced prompt...", .Information,
        "SafePrompt.enhanced_prompt_loading"⟩] ∧
    diagsAtLine ((resolveEnhancement ⟨[], fun _ => false⟩ 0 12 (.ok ("y".toList))
        ("// PROMPT: x".toList)).1.store) 0 =
      [⟨⟨0, 0, 0, 12⟩, "[NVIDIA] y", .Warning, "SafePrompt.enhanced_prompt"⟩] ∧
    diagsAtLine ((resolveEnhancement ⟨[], fun _ => false⟩ 0 12
        (.error "boom") ("// PROMPT: x".toList)).1.store) 0 =
      [⟨⟨0, 0, 0, 12⟩, "[NVIDIA] Failed to generate enhancement: boom", .Warning,
        "SafePrompt.enhanced_prompt_failed"⟩] := by
  have h := C4_lifecycle_amended ⟨[], fun _ => false⟩
    ⟨"// PROMPT: x".toList, "javascript"⟩ ("// PROMPT: x".toList) 0 (by decide)
    (by decide) ⟨"x".toList, by decide⟩
  exact ⟨h.1, h.2.1 ⟨[], fun _ => false⟩ 12 ("y".toList) ("// PROMPT: x".toList),
    h.2.2 ⟨[], fun _ => false⟩ 12 "boom" ("// PROMPT: x".toList)⟩

/-- C5: calling requestEnhancement a second time for the same line while the
first request is still in flight is a no-op: the first call dispatches the
remote enhancement call, the second dispatches nothing and leaves the state
unchanged, and resolution (success or failure alike, through the finally
block) clears the in-flight marker. -/
theorem C5_idempotent_trigger (st : EnhState) (i : Nat)
    (h : st.inflight (inflightKey i) = false) :
    (triggerEnhancementRequest st i).2 = true ∧
    (triggerEnhancementRequest (triggerEnhancementRequest st i).1 i).2 = false ∧
    (triggerEnhancementRequest (triggerEnhancementRequest st i).1 i).1 =
      (triggerEnhancementRequest st i).1 ∧
    (∀ (len : Nat) (res : Except String (List Char)) (text : List Char),
      ((resolveEnhancement (triggerEnhancementRequest st i).1 i len res text).1).inflight
        (inflightKey i) = false) := by
  have h1 : triggerEnhancementRequest st i =
      (⟨st.store, fun k => if k = inflightKey i then true else st.inflight k⟩, true) := by
    unfold triggerEnhancementRequest
    rw [h]
    rfl
  refine ⟨by rw [h1], ?_, ?_, ?_⟩
  · rw [h1]
    unfold triggerEnhancementRequest
    simp
  · rw [h1]
    unfold triggerEnhancementRequest
    simp
  · intro len res text
    unfold resolveEnhancement
    simp

/-- Witness for C5 from the empty state at line 0. -/
theorem C5_witness :
    (triggerEnhancementRequest ⟨[], fun _ => false⟩ 0).2 = true ∧
    (triggerEnhancementRequest
      (triggerEnhancementRequest ⟨[], fun _ => false⟩ 0).1 0).2 = false ∧
    ((resolveEnhancement (triggerEnhancementRequest ⟨[], fun _ => false⟩ 0).1 0 1
        (.error "e") []).1).inflight (inflightKey 0) = false := by
  have h := C5_idempotent_trigger ⟨[], fun _ => false⟩ 0 rfl
  exact ⟨h.1, h.2.1, h.2.2.2 1 (.error "e") []⟩

/-- C6: every Enhancement Client failure is returned as an error value and
converted at the resolution site into a Warning diagnostic with code
enhanced_prompt_failed carrying the failure message; the security-scan
diagnostics are still published alongside it; with no credential configured
the failure message contains the text about OPENAI_API_KEY not being set. -/
theorem C6_failure_handling (st : EnhState) (i len : Nat) (text : List Char)
    (apiKeySet : Bool) (outcome : RemoteOutcome) (m : String)
    (hm : getEnhancedPromptFromNvidia apiKeySet outcome = .error m) :
    failureDiag i len m ∈ (resolveEnhancement st i len (.error m) text).2 ∧
    (∀ d ∈ findIssuesWithRegex text,
      d ∈ (resolveEnhancement st i len (.error m) text).2) ∧
    (failureDiag i len m).code = "SafePrompt.enhanced_prompt_failed" ∧
    (failureDiag i len m).severity = .Warning ∧
    (apiKeySet = false →
      containsSubB ("OPENAI_API_KEY is not set".toList)
        ((failureDiag i len m).message.toList) = true) := by
  refine ⟨?_, ?_, rfl, rfl, ?_⟩
  · unfold resolveEnhancement
    apply List.mem_append_left
    apply List.mem_append_right
    show failureDiag i len m ∈ [resolveDiag i len (Except.error m)]
    simp [resolveDiag]
  · intro d hd
    unfold resolveEnhancement
    exact List.mem_append_right _ hd
  · intro hkey
    subst hkey
    have hc : getEnhancedPromptFromNvidia false outcome = .error
        "OPENAI_API_KEY is not set (map NVIDIA_API -> OPENAI_API_KEY or set it directly)." :=
      rfl
    injection hc.symm.trans hm with he
    subst he
    rw [show (failureDiag i len
        "OPENAI_API_KEY is not set (map NVIDIA_API -> OPENAI_API_KEY or set it directly).").message =
      "[NVIDIA] Failed to generate enhancement: OPENAI_API_KEY is not set (map NVIDIA_API -> OPENAI_API_KEY or set it directly)."
      from rfl]
    decide

/-- Witness for C6 with the credential unset. -/
theorem C6_witness :
    failureDiag 0 5 "OPENAI_API_KEY is not set (map NVIDIA_API -> OPENAI_API_KEY or set it directly)."
        ∈ (resolveEnhancement ⟨[], fun _ => false⟩ 0 5
          (.error "OPENAI_API_KEY is not set (map NVIDIA_API -> OPENAI_API_KEY or set it directly).")
          ("token = 'a'".toList)).2 ∧
    containsSubB ("OPENAI_API_KEY is not set".toList)
      ((failureDiag 0 5 "OPENAI_API_KEY is not set (map NVIDIA_API -> OPENAI_API_KEY or set it directly).").message.toList) = true := by
  have h := C6_failure_handling ⟨[], fun _ => false⟩ 0 5 ("token = 'a'".toList)
    false (.ok none) _ rfl
  exact ⟨h.1, h.2.2.2.2 rfl⟩

/-- C7: the stored enhancement diagnostics never contain two entries on the
same start line, and the invariant is preserved by the wholesale replacement
of a fresh scan pass and by the filter-then-push performed when an in-flight
request resolves with success or failure. -/
theorem C7_store_invariant (st : EnhState) (h : NoDupLines st.store) :
    (∀ (doc : Document), NoDupLines ((detectAndEnhancePrompts st doc).1.store)) ∧
    (∀ (i len : Nat) (res : Except String (List Char)) (text : List Char),
      NoDupLines ((resolveEnhancement st i len res text).1.store)) := by
  constructor
  · intro doc
    unfold detectAndEnhancePrompts
    cases ht : isTargetDoc doc.languageId
    · simp only [Bool.false_eq_true, if_false]
      exact h
    · simp only [if_true]
      show NoDupLines ((detectLoop st (enumFrom 0 (splitLines doc.text))).2.1)
      exact noDup_detect_store doc.text st
  · intro i len res text
    unfold resolveEnhancement
    exact noDup_resolve h resolveDiag_key

/-- Witness for C7 at a two-prompt document and one resolution. -/
theorem C7_witness :
    NoDupLines ((detectAndEnhancePrompts ⟨[], fun _ => false⟩
        ⟨"// PROMPT: x\n// PROMPT: y".toList, "javascript"⟩).1.store) ∧
    NoDupLines ((resolveEnhancement ⟨[], fun _ => false⟩ 1 5 (.ok ("z".toList))
        []).1.store) := by
  have h := C7_store_invariant ⟨[], fun _ => false⟩ List.Pairwise.nil
  exact ⟨h.1 ⟨"// PROMPT: x\n// PROMPT: y".toList, "javascript"⟩,
    h.2 1 5 (.ok ("z".toList)) []⟩

/-- C8 counterexample: on the scenario line the matched secret-kind token is
apiKey, whose uppercased sanitised form is APIKEY, so the quick fix produces
process.env.APIKEY and not process.env.API_KEY; moreover on a line with
mismatched quotes, which still carries a hardcoded_secret diagnostic, the
backreference quote regex finds no literal and the fallback replacement
leaves the line unchanged instead of replacing the right-hand side after
the equals sign. -/
theorem C8_counterexample :
    fixLine ("const apiKey = \"sk-12345\"".toList) =
      "const apiKey = process.env.APIKEY".toList ∧
    fixLine ("const apiKey = \"sk-12345\"".toList) ≠
      "const apiKey = process.env.API_KEY".toList ∧
    (secretDiagOfLine 0 ("token = 'a\"".toList)).isSome = true ∧
    fixLine ("token = 'a\"".toList) = "token = 'a\"".toList := by
  refine ⟨by decide, by decide, by decide, by decide⟩

/-- C8 (amended): for every line carrying a hardcoded_secret diagnostic, the
quick fix targets the environment variable named by uppercasing the leftmost
secret-kind token of the line and replacing every character outside capital
letters, digits and underscore with an underscore; when a same-quote
delimited literal exists, the edit replaces its first occurrence with the
process.env reference; otherwise the whole line is rewritten by the fallback
replacement (which substitutes the first equals-quote-through-last-quote
substring and leaves the line unchanged when there is none); the fix always
carries a rescan trigger.  In particular const apiKey = "sk-12345" becomes
const apiKey = process.env.APIKEY. -/
theorem C8_quickfix_amended (line : List Char)
    (hdiag : (secretDiagOfLine 0 line).isSome = true) :
    (∃ p tok, findFrom matchToken line 0 = some (p, tok) ∧
      envNameOf line = (tok.map Char.toUpper).map sanitizeEnv) ∧
    (∀ p m0, findFrom quoteMatchAt line 0 = some (p, m0) →
      fixLine line = line.take p ++ "process.env.".toList ++ envNameOf line ++
        line.drop (p + m0.length)) ∧
    (findFrom quoteMatchAt line 0 = none →
      fixLine line = jsReplaceEqQuote line (envNameOf line)) ∧
    (∀ (ds : List Diagnostic) (l2 : List Char),
      ∀ qf ∈ provideSecretActions ds l2, qf.rescan = true) := by
  refine ⟨?_, ?_, ?_, ?_⟩
  · have hsec : ∃ ps ms, findFrom matchSecretAt line 0 = some (ps, ms) := by
      unfold secretDiagOfLine at hdiag
      cases hf : findFrom matchSecretAt line 0 with
      | none => rw [hf] at hdiag; cases hdiag
      | some res =>
        cases res with
        | mk p1 m1 => exact ⟨p1, m1, rfl⟩
    obtain ⟨ps, ms, hf⟩ := hsec
    obtain ⟨k, rr, hps, hmatch⟩ := findFrom_match hf
    obtain ⟨mt, rt, htok⟩ := matchSecret_token hmatch
    obtain ⟨p, tok, hfind⟩ := findFrom_isSome (i := 0) htok
    refine ⟨p, tok, hfind, ?_⟩
    unfold envNameOf
    rw [hfind]
  · intro p m0 hq
    have hidx : indexOfFrom m0 line 0 = some p :=
      findFrom_indexOf (fun h => quote_split h) (fun h => quote_stable h) hq
    unfold fixLine
    rw [hq]
    simp [hidx]
  · intro hq
    unfold fixLine
    rw [hq]
  · intro ds l2 qf hqf
    unfold provideSecretActions at hqf
    obtain ⟨d, _, hd⟩ := List.mem_map.mp hqf
    rw [← hd]

/-- Witness for C8 at the scenario line of the claim. -/
theorem C8_witness :
    fixLine ("const apiKey = \"sk-12345\"".toList) =
      ("const apiKey = \"sk-12345\"".toList).take 15 ++ "process.env.".toList ++
        envNameOf ("const apiKey = \"sk-12345\"".toList) ++
        ("const apiKey = \"sk-12345\"".toList).drop 25 := by
  have h := (C8_quickfix_amended ("const apiKey = \"sk-12345\"".toList)
    (by decide)).2.1 15 ("\"sk-12345\"".toList) (by decide)
  exact h

/-- C10: the security scan runs on every document regardless of its language
kind and its diagnostics are always part of the published list; for a
document of an unsupported kind the prompt pass is skipped entirely: the
state is unchanged, no remote call is dispatched, and the published list is
the previously stored enhancement diagnostics followed by the fresh
security diagnostics. -/
theorem C10_language_gating (st : EnhState) (doc : Document) :
    (∀ d ∈ findIssuesWithRegex doc.text,
      d ∈ (runSecurityScanAndEnhanced st doc).published) ∧
    (isTargetDoc doc.languageId = false →
      (runSecurityScanAndEnhanced st doc).state = st ∧
      (runSecurityScanAndEnhanced st doc).remoteCalls = [] ∧
      (runSecurityScanAndEnhanced st doc).published =
        st.store ++ findIssuesWithRegex doc.text) := by
  constructor
  · intro d hd
    unfold runSecurityScanAndEnhanced
    exact List.mem_append_right _ hd
  · intro hf
    unfold runSecurityScanAndEnhanced detectAndEnhancePrompts
    rw [hf]
    simp

/-- Witness for C10 at an unsupported-language document containing a
hardcoded secret. -/
theorem C10_witness :
    (runSecurityScanAndEnhanced ⟨[], fun _ => false⟩
        ⟨"apikey='x'".toList, "plaintext"⟩).state = ⟨[], fun _ => false⟩ ∧
    (runSecurityScanAndEnhanced ⟨[], fun _ => false⟩
        ⟨"apikey='x'".toList, "plaintext"⟩).remoteCalls = [] ∧
    (runSecurityScanAndEnhanced ⟨[], fun _ => false⟩
        ⟨"apikey='x'".toList, "plaintext"⟩).published =
      ([] : List Diagnostic) ++ findIssuesWithRegex ("apikey='x'".toList) := by
  have h := (C10_language_gating ⟨[], fun _ => false⟩
    ⟨"apikey='x'".toList, "plaintext"⟩).2 (by decide)
  exact ⟨h.1, h.2.1, h.2.2⟩
